import Mathlib

/-!
# GainLib: the orchestration layer of `GPUGainProcessor`

A shallow embedding of `gainlib/src/GPUGainProcessor.cpp` (arm / disarm state
machine, buffer growth, launch loop, gain and latency accessors) together with
the test driver of `gainlib/tests/GPUGainProcessorTests.cpp`.

Conventions of the embedding

* `uint32_t` values are natural numbers; the one multiplication of the source
  (`max_samples_per_channel * 2`) is reduced modulo `2^32`, and the `int`
  argument `nsamples` of `process` is an integer converted by `toU32` wherever
  the source compares it with, or assigns it to, an unsigned value.
* Audio memory is indexed by channel and by sample position inside the
  channel's own buffer (the "individual channel" layout of the source); a channel
  pointer is a position inside that buffer, so `ptr += k` is addition.
* The caller's output memory, the two `thread_local` pointer vectors of `process`
  and the ordered list of calls made to the execution backend are carried in the
  model state next to the data members of the class.
* The single mutex only serialises threads and has no counterpart in this
  sequential model. The two threshold fields of the executor configuration are
  constants handed through to the backend and are left out.
* Loops of the source that need not terminate are given a fuel argument; running
  out of fuel is the outcome `diverge`.
-/

set_option linter.unusedSectionVars false

namespace GainLib

/-- Template argument of `GPUGainProcessor` (`ExecutionMode::eSync`, `ExecutionMode::eAsync`). -/
inductive ExecutionMode
  | eSync
  | eAsync
  deriving DecidableEq, Repr

/-- The constant `GPUGainProcessor::MaxSampleCount`. -/
def MaxSampleCount : Nat := 4096

/-- Conversion of an `int` to `uint32_t`. -/
def toU32 (n : Int) : Nat := (n % 4294967296).toNat

/-- The fields of `ProcessExecutorConfig` that the orchestration layer reads or writes. -/
structure ProcessExecutorConfig where
  nchannels_in : Nat
  nchannels_out : Nat
  max_samples_per_channel : Nat
  deriving DecidableEq, Repr

/-- A backend processor: its handle and the gain baked into it at creation. -/
structure Processor (α : Type) where
  handle : Nat
  gain_value : α

/-- Modelled from the spec: the answer of the backend call `Module::CreateProcessor`, whose
code is outside the repository. `failed` is a non-success error code, in which case the
out-parameter is left as it was; `returned p` is the success code with `p` stored in the
out-parameter (`none` being a null processor). -/
inductive CreateProcessorResult
  | failed
  | returned (p : Option Nat)
  deriving DecidableEq, Repr

/-- Calls made to the execution backend, in program order. -/
inductive BackendCall
  | CreateProcessor (r : CreateProcessorResult)
  | DeleteProcessor (handle : Nat)
  | NewExecutor (config : ProcessExecutorConfig)
  | DeleteExecutor
  | Execute (nsamples : Nat) (in_buffer out_buffer : List Nat)
  | ExecuteAsync (nsamples : Nat) (in_buffer : List Nat)
  | RetrieveOutput (nsamples : Nat) (out_buffer : List Nat)
  deriving DecidableEq, Repr

/-- Modelled from the spec: a `ProcessExecutor`, whose code is outside the repository. It keeps
the configuration and the processor it was built with and, for the double-buffered variant,
one queue of samples in flight per channel. -/
structure ProcessExecutor (α : Type) where
  config : ProcessExecutorConfig
  processor : Option (Processor α)
  pipeline : Nat → List α

/-- Audio memory: channel, then position inside the channel's buffer. -/
abbrev Memory (α : Type) := Nat → Nat → α

/-- Data members of `GPUGainProcessor<EXEC_MODE>` and the environment it acts on. -/
structure GPUGainProcessor (α : Type) where
  mode : ExecutionMode
  m_armed : Bool
  m_nchannels : Nat
  gain_value : α
  m_processor : Option (Processor α)
  m_buffer_growth_enabled : Bool
  m_executor_config : ProcessExecutorConfig
  m_process_executor : Option (ProcessExecutor α)
  input_ptrs : List Nat
  output_ptrs : List Nat
  output : Memory α
  calls : List BackendCall

/-- The two `std::runtime_error`s thrown by the member functions modelled here. -/
inductive Error
  | createProcessorFailed
  | setGainWhileArmed
  deriving DecidableEq, Repr

/-- Outcome of a member function: normal return, exception, no return within the fuel given,
or a dereference of a null executor / a launch larger than the executor accepts. -/
inductive Outcome (σ : Type)
  | ok (s : σ)
  | throw (e : Error) (s : σ)
  | diverge
  | fault

/-- The state a caller can go on with: after a return or after a caught exception. -/
def Outcome.state? {σ : Type} : Outcome σ → Option σ
  | .ok s => some s
  | .throw _ s => some s
  | .diverge => none
  | .fault => none

/-- Two calls one after the other in a program: the second is made only when the first one
returns; an exception, a hang or a fault of the first ends the sequence. -/
def Outcome.andThen {σ : Type} (o : Outcome σ) (f : σ → Outcome σ) : Outcome σ :=
  match o with
  | .ok s => f s
  | .throw e s => .throw e s
  | .diverge => .diverge
  | .fault => .fault

section Model

variable {α : Type} [Mul α] [Zero α]

/-- Modelled from the spec: construction of a `ProcessExecutor`. The double-buffered executor
starts with `max_samples_per_channel` zeros in flight on every channel ("a full buffer of
zeros" in the words of the source); the synchronous one holds nothing. -/
def ProcessExecutor.new (mode : ExecutionMode) (processor : Option (Processor α))
    (config : ProcessExecutorConfig) : ProcessExecutor α :=
  { config := config
    processor := processor
    pipeline := fun _ =>
      match mode with
      | .eSync => []
      | .eAsync => List.replicate config.max_samples_per_channel 0 }

/-- Modelled from the spec: `Execute(nsamples, in, out)` of the synchronous executor writes
`gain * in[c][i]` to `out[c][i]` for `i < nsamples` on the channel pointers it is handed. -/
def ProcessExecutor.Execute (e : ProcessExecutor α) (input : Memory α) (nsamples : Nat)
    (in_buffer out_buffer : List Nat) (output : Memory α) : Memory α :=
  fun c i =>
    match e.processor with
    | none => output c i
    | some p =>
      if c < e.config.nchannels_out ∧ out_buffer.getD c 0 ≤ i ∧
          i < out_buffer.getD c 0 + nsamples then
        p.gain_value * input c (in_buffer.getD c 0 + (i - out_buffer.getD c 0))
      else output c i

/-- Modelled from the spec: `ExecuteAsync(nsamples, in)` of the double-buffered executor
submits `nsamples` samples per channel; they join the back of the channel's queue. -/
def ProcessExecutor.ExecuteAsync (e : ProcessExecutor α) (input : Memory α) (nsamples : Nat)
    (in_buffer : List Nat) : ProcessExecutor α :=
  match e.processor with
  | none => e
  | some p =>
    { e with
      pipeline := fun c =>
        if c < e.config.nchannels_in then
          e.pipeline c ++
            (List.range nsamples).map (fun i => p.gain_value * input c (in_buffer.getD c 0 + i))
        else e.pipeline c }

/-- Modelled from the spec: `RetrieveOutput(nsamples, out)` of the double-buffered executor
takes the `nsamples` oldest samples of every channel's queue and writes them to `out`. -/
def ProcessExecutor.RetrieveOutput (e : ProcessExecutor α) (nsamples : Nat)
    (out_buffer : List Nat) (output : Memory α) : ProcessExecutor α × Memory α :=
  ({ e with pipeline := fun c =>
        if c < e.config.nchannels_out then (e.pipeline c).drop nsamples else e.pipeline c },
   fun c i =>
    if c < e.config.nchannels_out ∧ out_buffer.getD c 0 ≤ i ∧
        i < out_buffer.getD c 0 + nsamples then
      (e.pipeline c).getD (i - out_buffer.getD c 0) 0
    else output c i)

/-- The constructor `GPUGainProcessor(nchannels, nsamples_per_channel)`, on its successful
path (device, launcher, graph and module found). `output` is the caller's output memory. -/
def GPUGainProcessor.create [One α] (mode : ExecutionMode) (nchannels nsamples_per_channel : Nat)
    (output : Memory α) : GPUGainProcessor α :=
  { mode := mode
    m_armed := false
    m_nchannels := nchannels
    gain_value := 1
    m_processor := none
    m_buffer_growth_enabled := true
    m_executor_config :=
      { nchannels_in := nchannels
        nchannels_out := nchannels
        max_samples_per_channel := nsamples_per_channel }
    m_process_executor := none
    input_ptrs := []
    output_ptrs := []
    output := output
    calls := [] }

/-- The factory `createGpuProcessor(nchannels, nsamples_per_channel, double_buffering)`. -/
def createGpuProcessor [One α] (nchannels nsamples_per_channel : Nat) (double_buffering : Bool)
    (output : Memory α) : GPUGainProcessor α :=
  if double_buffering then
    GPUGainProcessor.create .eAsync nchannels nsamples_per_channel output
  else
    GPUGainProcessor.create .eSync nchannels nsamples_per_channel output

/-- The member function `arm()`; `r` is the answer of the backend to `CreateProcessor`, which is
only asked for when the processor is not armed. -/
def GPUGainProcessor.arm (r : CreateProcessorResult) (s : GPUGainProcessor α) :
    Outcome (GPUGainProcessor α) :=
  if !s.m_armed then
    match r with
    | .failed =>
      .throw .createProcessorFailed { s with calls := s.calls ++ [.CreateProcessor r] }
    | .returned none =>
      .throw .createProcessorFailed
        { s with m_processor := none, calls := s.calls ++ [.CreateProcessor r] }
    | .returned (some h) =>
      .ok { s with
            m_processor := some ⟨h, s.gain_value⟩
            m_process_executor :=
              some (ProcessExecutor.new s.mode (some ⟨h, s.gain_value⟩) s.m_executor_config)
            m_armed := true
            calls := s.calls ++ [.CreateProcessor r, .NewExecutor s.m_executor_config] }
  else .ok s

/-- The statement `if (m_process_executor) { delete m_process_executor; ... = nullptr; }`. -/
def GPUGainProcessor.deleteExecutor (s : GPUGainProcessor α) : GPUGainProcessor α :=
  match s.m_process_executor with
  | some _ => { s with m_process_executor := none, calls := s.calls ++ [.DeleteExecutor] }
  | none => s

/-- The statement `if (m_processor) { m_module->DeleteProcessor(m_processor); ... = nullptr; }`. -/
def GPUGainProcessor.deleteProcessor (s : GPUGainProcessor α) : GPUGainProcessor α :=
  match s.m_processor with
  | some p => { s with m_processor := none, calls := s.calls ++ [.DeleteProcessor p.handle] }
  | none => s

/-- The member function `disarm()`. -/
def GPUGainProcessor.disarm (s : GPUGainProcessor α) : GPUGainProcessor α :=
  if s.m_armed then
    { s.deleteExecutor.deleteProcessor with m_armed := false }
  else s

/-- The member function `renewExecutor()`. -/
def GPUGainProcessor.renewExecutor (s : GPUGainProcessor α) : GPUGainProcessor α :=
  { s.deleteExecutor with
    m_process_executor :=
      some (ProcessExecutor.new s.mode s.deleteExecutor.m_processor s.m_executor_config)
    calls := s.deleteExecutor.calls ++ [.NewExecutor s.m_executor_config] }

/-- The member function `set_gain(gain)`. -/
def GPUGainProcessor.set_gain (gain : α) (s : GPUGainProcessor α) :
    Outcome (GPUGainProcessor α) :=
  if !s.m_armed then .ok { s with gain_value := gain }
  else .throw .setGainWhileArmed s

/-- The member function `enable_buffer_growth(enable)`. -/
def GPUGainProcessor.enable_buffer_growth (enable : Bool) (s : GPUGainProcessor α) :
    GPUGainProcessor α :=
  { s with m_buffer_growth_enabled := enable }

/-- The member function `get_latency()`. -/
def GPUGainProcessor.get_latency (s : GPUGainProcessor α) : Nat :=
  match s.mode with
  | .eAsync => s.m_executor_config.max_samples_per_channel
  | .eSync => 0

/-- The `do { ... } while (...)` loop of `process`: `capacity` is
`m_executor_config.max_samples_per_channel`, `nsamples` the sample count as compared by the
source (unsigned). `none` when the fuel runs out. -/
def growLoop : Nat → Nat → Nat → Option Nat
  | 0, _, _ => none
  | fuel + 1, nsamples, capacity =>
    let capacity1 := min (capacity * 2 % 4294967296) MaxSampleCount
    if capacity1 < nsamples ∧ capacity1 < MaxSampleCount then growLoop fuel nsamples capacity1
    else some capacity1

/-- The assignment `m_executor_config.max_samples_per_channel = capacity`. -/
def GPUGainProcessor.withCapacity (s : GPUGainProcessor α) (capacity : Nat) :
    GPUGainProcessor α :=
  { s with m_executor_config :=
      { s.m_executor_config with max_samples_per_channel := capacity } }

/-- The buffer-growth block at the start of `process` (the `if` around the `do` loop, and the
call of `renewExecutor`). -/
def GPUGainProcessor.growthStep (fuel : Nat) (nsamples : Int) (s : GPUGainProcessor α) :
    Outcome (GPUGainProcessor α) :=
  if s.m_buffer_growth_enabled ∧ s.m_executor_config.max_samples_per_channel < toU32 nsamples ∧
      s.m_executor_config.max_samples_per_channel < MaxSampleCount then
    match growLoop fuel (toU32 nsamples) s.m_executor_config.max_samples_per_channel with
    | none => .diverge
    | some capacity =>
      .ok (s.withCapacity capacity).renewExecutor
  else .ok s

/-- One pass through the backend calls inside the `while` loop of `process`: `Execute` for the
synchronous mode, `ExecuteAsync` followed by `RetrieveOutput` for the double-buffered one.
`none` when there is no executor or the launch exceeds what the executor was built for. -/
def GPUGainProcessor.launch (input : Memory α) (this_launch_samples : Nat)
    (in_buffer out_buffer : List Nat) (s : GPUGainProcessor α) : Option (GPUGainProcessor α) :=
  match s.m_process_executor with
  | none => none
  | some e =>
    if e.config.max_samples_per_channel < this_launch_samples then none
    else
      match s.mode with
      | .eAsync =>
        some { s with
          m_process_executor := some
            ((e.ExecuteAsync input this_launch_samples in_buffer).RetrieveOutput
              this_launch_samples out_buffer s.output).1
          output :=
            ((e.ExecuteAsync input this_launch_samples in_buffer).RetrieveOutput
              this_launch_samples out_buffer s.output).2
          calls := s.calls ++ [.ExecuteAsync this_launch_samples in_buffer,
            .RetrieveOutput this_launch_samples out_buffer] }
      | .eSync =>
        some { s with
          output := e.Execute input this_launch_samples in_buffer out_buffer s.output
          calls := s.calls ++ [.Execute this_launch_samples in_buffer out_buffer] }

/-- The `while (remaining_samples != 0)` loop of `process`. -/
def GPUGainProcessor.launchLoop (input : Memory α) :
    Nat → List Nat → List Nat → Nat → GPUGainProcessor α → Outcome (GPUGainProcessor α)
  | 0, _, _, remaining_samples, s => if remaining_samples = 0 then .ok s else .diverge
  | fuel + 1, in_buffer, out_buffer, remaining_samples, s =>
    if remaining_samples = 0 then .ok s
    else
      match s.launch input (min s.m_executor_config.max_samples_per_channel remaining_samples)
          in_buffer out_buffer with
      | none => .fault
      | some s1 =>
        if remaining_samples -
            min s.m_executor_config.max_samples_per_channel remaining_samples ≠ 0 then
          GPUGainProcessor.launchLoop input fuel
            (s1.input_ptrs.map
              (· + min s.m_executor_config.max_samples_per_channel remaining_samples))
            (s1.output_ptrs.map
              (· + min s.m_executor_config.max_samples_per_channel remaining_samples))
            (remaining_samples -
              min s.m_executor_config.max_samples_per_channel remaining_samples)
            { s1 with
              input_ptrs := s1.input_ptrs.map
                (· + min s.m_executor_config.max_samples_per_channel remaining_samples)
              output_ptrs := s1.output_ptrs.map
                (· + min s.m_executor_config.max_samples_per_channel remaining_samples) }
        else
          GPUGainProcessor.launchLoop input fuel in_buffer out_buffer
            (remaining_samples -
              min s.m_executor_config.max_samples_per_channel remaining_samples) s1

/-- The copy of the caller's channel pointers into the `thread_local` vectors, made when more
than one launch is needed. -/
def GPUGainProcessor.copyPointers (in_buffer out_buffer : List Nat) (nsamples : Int)
    (s : GPUGainProcessor α) : GPUGainProcessor α :=
  if s.m_executor_config.max_samples_per_channel < toU32 nsamples then
    { s with
      input_ptrs := in_buffer.take s.m_nchannels
      output_ptrs := out_buffer.take s.m_nchannels }
  else s

/-- The member function `process(in_buffer, out_buffer, nsamples)`. `input` is the caller's
input memory and `r` the answer the backend gives if the call has to arm. -/
def GPUGainProcessor.process (fuel : Nat) (r : CreateProcessorResult) (input : Memory α)
    (in_buffer out_buffer : List Nat) (nsamples : Int) (s : GPUGainProcessor α) :
    Outcome (GPUGainProcessor α) :=
  ((if !s.m_armed then s.arm r else .ok s).andThen
    fun s1 => s1.growthStep fuel nsamples).andThen
    fun s2 => GPUGainProcessor.launchLoop input fuel in_buffer out_buffer (toU32 nsamples)
      (s2.copyPointers in_buffer out_buffer nsamples)

/-- A caller that makes one `process` call per entry of the list, each on the region that
follows the previous one in every channel's input and output stream (the calling pattern of
`process_test`, lines 96 to 104 of the tests): `in_ptr` and `out_ptr` are the channel bases
and `sample_off` the number of samples handed over so far. -/
def processConsecutive (fuel : Nat) (r : CreateProcessorResult) (input : Memory α)
    (in_ptr out_ptr : List Nat) :
    List Nat → Nat → GPUGainProcessor α → Outcome (GPUGainProcessor α)
  | [], _, s => .ok s
  | ns :: rest, sample_off, s =>
    match s.process fuel r input (in_ptr.map (· + sample_off)) (out_ptr.map (· + sample_off))
        (Int.ofNat ns) with
    | .ok s1 => processConsecutive fuel r input in_ptr out_ptr rest (sample_off + ns) s1
    | .throw e s1 => .throw e s1
    | .diverge => .diverge
    | .fault => .fault

/-- The public operations of `GainInterface`, with their arguments. -/
inductive Op (α : Type)
  | arm (r : CreateProcessorResult)
  | disarm
  | set_gain (gain : α)
  | enable_buffer_growth (enable : Bool)
  | get_latency
  | process (r : CreateProcessorResult) (input : Memory α) (in_buffer out_buffer : List Nat)
      (nsamples : Int)

/-- One public operation applied to a processor. -/
def GPUGainProcessor.step (fuel : Nat) : Op α → GPUGainProcessor α → Outcome (GPUGainProcessor α)
  | .arm r, s => s.arm r
  | .disarm, s => .ok s.disarm
  | .set_gain gain, s => s.set_gain gain
  | .enable_buffer_growth enable, s => .ok (s.enable_buffer_growth enable)
  | .get_latency, s => .ok s
  | .process r input in_buffer out_buffer nsamples, s =>
    s.process fuel r input in_buffer out_buffer nsamples

/-- A finite sequence of public operations; an exception is caught by the caller, who goes on
with the next operation. `none` when an operation does not come back. -/
def GPUGainProcessor.run (fuel : Nat) : List (Op α) → GPUGainProcessor α →
    Option (GPUGainProcessor α)
  | [], s => some s
  | op :: ops, s =>
    match (s.step fuel op).state? with
    | none => none
    | some s1 => GPUGainProcessor.run fuel ops s1

/-- The backend calls of one launch of `nsamples` samples on the given channel pointers. -/
def launchCalls (mode : ExecutionMode) (nsamples : Nat) (in_buffer out_buffer : List Nat) :
    List BackendCall :=
  match mode with
  | .eAsync => [.ExecuteAsync nsamples in_buffer, .RetrieveOutput nsamples out_buffer]
  | .eSync => [.Execute nsamples in_buffer out_buffer]

/-- The launches the chunking rule of the specification asks for: launch `j` carries
`min capacity (nsamples - j * capacity)` samples and is handed every channel pointer advanced by
`j * capacity`; there are `ceil (nsamples / capacity)` launches. -/
def expectedLaunches (mode : ExecutionMode) (capacity nsamples : Nat)
    (in_buffer out_buffer : List Nat) : List BackendCall :=
  (List.range ((nsamples + capacity - 1) / capacity)).flatMap fun j =>
    launchCalls mode (min capacity (nsamples - j * capacity))
      (in_buffer.map (· + j * capacity)) (out_buffer.map (· + j * capacity))

/-- The lifecycle invariant: a disarmed processor holds neither a backend processor nor an
executor; an armed one holds both, the executor built on that processor with the current
configuration. The channel counts of the configuration are those of the constructor. -/
def GPUGainProcessor.Consistent (s : GPUGainProcessor α) : Prop :=
  (s.m_armed = false → s.m_processor = none ∧ s.m_process_executor = none) ∧
  (s.m_armed = true → ∃ p e, s.m_processor = some p ∧ s.m_process_executor = some e ∧
    e.processor = some p ∧ e.config = s.m_executor_config) ∧
  s.m_executor_config.nchannels_in = s.m_nchannels ∧
  s.m_executor_config.nchannels_out = s.m_nchannels

/-- The output stream the specification asks of the double-buffered mode: `latency` samples of
pipeline fill (zeros), then the gain times the input delayed by `latency` samples. `in_ptr`
holds the start of every channel's input stream. -/
def delayedStream (latency : Nat) (gain : α) (input : Memory α) (in_ptr : List Nat) : Memory α :=
  fun c t => if t < latency then 0 else gain * input c (in_ptr.getD c 0 + (t - latency))

/-- The state of the double-buffered executor after `submitted` samples per channel have been
handed over since arming: every channel's queue holds the next `capacity` samples of the
delayed stream. -/
def GPUGainProcessor.Pipelined (s : GPUGainProcessor α) (input : Memory α) (in_ptr : List Nat)
    (gain : α) (submitted : Nat) : Prop :=
  ∃ e, s.m_process_executor = some e ∧ ∀ c, c < s.m_nchannels →
    e.pipeline c = (List.range s.m_executor_config.max_samples_per_channel).map fun i =>
      delayedStream s.m_executor_config.max_samples_per_channel gain input in_ptr c
        (submitted + i)

/-- What the launch loop leaves alone: every data member except the executor's queues, the
pointer vectors, the output memory and the list of backend calls. -/
def GPUGainProcessor.Frame (s s1 : GPUGainProcessor α) : Prop :=
  s1.m_executor_config = s.m_executor_config ∧ s1.mode = s.mode ∧
  s1.m_armed = s.m_armed ∧ s1.m_nchannels = s.m_nchannels ∧
  s1.gain_value = s.gain_value ∧ s1.m_processor = s.m_processor ∧
  s1.m_buffer_growth_enabled = s.m_buffer_growth_enabled ∧
  (s.Consistent → s1.Consistent)

/-- Whether a backend call constructs an executor. -/
def BackendCall.constructsExecutor : BackendCall → Bool
  | .NewExecutor _ => true
  | _ => false

/-- Whether a backend call destroys an executor. -/
def BackendCall.destroysExecutor : BackendCall → Bool
  | .DeleteExecutor => true
  | _ => false

/-- Whether a backend call creates a backend processor: `CreateProcessor` answered with the
success code and a processor. A creation request that fails creates none. -/
def BackendCall.createsProcessor : BackendCall → Bool
  | .CreateProcessor (.returned (some _)) => true
  | _ => false

/-- Whether a backend call destroys a backend processor. -/
def BackendCall.deletesProcessor : BackendCall → Bool
  | .DeleteProcessor _ => true
  | _ => false

/-- Number of executors constructed by the calls. -/
def constructedExecutors (calls : List BackendCall) : Nat :=
  calls.countP BackendCall.constructsExecutor

/-- Number of executors destroyed by the calls. -/
def destroyedExecutors (calls : List BackendCall) : Nat :=
  calls.countP BackendCall.destroysExecutor

/-- Number of backend processors created by the calls. -/
def createdProcessors (calls : List BackendCall) : Nat :=
  calls.countP BackendCall.createsProcessor

/-- Number of backend processors destroyed by the calls. -/
def deletedProcessors (calls : List BackendCall) : Nat :=
  calls.countP BackendCall.deletesProcessor

/-- Backend resources alive at some point of a run: the executors and the backend processors
constructed and not yet destroyed. -/
structure LiveResources where
  executors : Nat
  processors : Nat
  deriving DecidableEq, Repr

/-- Effect of one backend call on the live resources, `none` when the call breaks the resource
discipline: an executor is constructed while another one is alive or while no backend processor
is alive, an executor is destroyed while none is alive, a backend processor is created while
another one is alive, or a backend processor is destroyed while an executor is alive or while
no processor is alive. -/
def LiveResources.after (l : LiveResources) : BackendCall → Option LiveResources
  | .NewExecutor _ =>
    if l.executors = 0 ∧ l.processors ≠ 0 then some ⟨l.executors + 1, l.processors⟩ else none
  | .DeleteExecutor =>
    if l.executors = 0 then none else some ⟨l.executors - 1, l.processors⟩
  | .CreateProcessor (.returned (some _)) =>
    if l.processors = 0 then some ⟨l.executors, l.processors + 1⟩ else none
  | .CreateProcessor _ => some l
  | .DeleteProcessor _ =>
    if l.executors = 0 ∧ l.processors ≠ 0 then some ⟨l.executors, l.processors - 1⟩ else none
  | _ => some l

/-- The live resources after a list of backend calls made in order, `none` as soon as one call
breaks the resource discipline. -/
def LiveResources.track (l : LiveResources) : List BackendCall → Option LiveResources
  | [] => some l
  | c :: cs =>
    match l.after c with
    | none => none
    | some l1 => l1.track cs

/-- The resource invariant of a processor: the backend calls made so far keep the resource
discipline, and leave one executor and one backend processor alive when the processor is armed,
none when it is disarmed. -/
def GPUGainProcessor.ResourcesMatch (s : GPUGainProcessor α) : Prop :=
  LiveResources.track ⟨0, 0⟩ s.calls =
    some ⟨if s.m_armed then 1 else 0, if s.m_armed then 1 else 0⟩

end Model

end GainLib

namespace GainLib

/-! ## Arithmetic of the unsigned conversion and of the growth loop -/

theorem toU32_of_nonneg (n : Int) (h0 : 0 ≤ n) (h1 : n < 4294967296) :
    toU32 n = n.toNat := by
  unfold toU32
  rw [Int.emod_eq_of_lt h0 h1]

theorem toU32_ofNat (n : Nat) (h : n < 4294967296) : toU32 (Int.ofNat n) = n := by
  have h1 : (Int.ofNat n) < 4294967296 := by
    show (n : Int) < 4294967296
    exact_mod_cast h
  rw [toU32_of_nonneg (Int.ofNat n) (Int.ofNat_nonneg n) h1]
  rfl

theorem toU32_lt (n : Int) : toU32 n < 4294967296 := by
  unfold toU32
  have h := Int.emod_lt_of_pos n (show (0 : Int) < 4294967296 by norm_num)
  have h0 := Int.emod_nonneg n (show (4294967296 : Int) ≠ 0 by norm_num)
  omega

/-- Whenever the `do`/`while` loop comes back from a capacity below the ceiling, it returns the
first term of `c * 2 ^ j`, `j ≥ 1`, that covers the request or reaches the ceiling, clipped to
the ceiling; no doubling on the way overflows 32 bits. -/
theorem growLoop_form (fuel n : Nat) : ∀ c r : Nat, c < MaxSampleCount →
    growLoop fuel n c = some r →
    ∃ j, 1 ≤ j ∧ r = min (c * 2 ^ j) MaxSampleCount ∧
      (n ≤ c * 2 ^ j ∨ MaxSampleCount ≤ c * 2 ^ j) ∧
      (∀ i, 1 ≤ i → i < j → c * 2 ^ i < n ∧ c * 2 ^ i < MaxSampleCount) ∧
      (∀ i, i < j → c * 2 ^ i * 2 < 4294967296) := by
  induction fuel with
  | zero =>
    intro c r _ h
    simp [growLoop] at h
  | succ fuel ih =>
    intro c r h2 h
    have hM : MaxSampleCount = 4096 := rfl
    have hmod : c * 2 % 4294967296 = c * 2 := Nat.mod_eq_of_lt (by omega)
    rw [growLoop, hmod] at h
    by_cases hc : min (c * 2) MaxSampleCount < n ∧ min (c * 2) MaxSampleCount < MaxSampleCount
    · have h2c : c * 2 < MaxSampleCount := by
        have := hc.2
        omega
      have hmin : min (c * 2) MaxSampleCount = c * 2 := Nat.min_eq_left (Nat.le_of_lt h2c)
      have hpow : ∀ k, c * 2 * 2 ^ k = c * 2 ^ (k + 1) := fun k => by ring
      simp only [hc, and_self, if_true] at h
      rw [hmin] at h
      obtain ⟨j, hj1, hj3, hj4, hj5, hj6⟩ := ih (c * 2) r h2c h
      refine ⟨j + 1, by omega, ?_, ?_, ?_, ?_⟩
      · rw [hj3, hpow]
      · rw [← hpow]; exact hj4
      · intro i hi1 hi2
        rcases Nat.lt_or_ge 1 i with hi | hi
        · obtain ⟨k, rfl⟩ : ∃ k, i = k + 1 := ⟨i - 1, by omega⟩
          rw [← hpow]
          exact hj5 k (by omega) (by omega)
        · have : i = 1 := by omega
          subst this
          rw [hmin] at hc
          simpa using ⟨hc.1, h2c⟩
      · intro i hi
        rcases Nat.eq_zero_or_pos i with hi0 | hi0
        · subst hi0
          simp
          omega
        · obtain ⟨k, rfl⟩ : ∃ k, i = k + 1 := ⟨i - 1, by omega⟩
          rw [← hpow]
          exact hj6 k (by omega)
    · simp only [hc, if_false, Option.some.injEq] at h
      refine ⟨1, le_refl 1, ?_, ?_, ?_, ?_⟩
      · simp only [pow_one]
        exact h.symm
      · simp only [pow_one]
        by_contra hcon
        apply hc
        have : c * 2 < n ∧ c * 2 < MaxSampleCount := by omega
        rw [Nat.min_eq_left (Nat.le_of_lt this.2)]
        exact this
      · intro i hi1 hi2
        omega
      · intro i hi
        have : i = 0 := by omega
        subst this
        simp
        omega

/-- With a capacity of at least one below the ceiling the `do`/`while` loop ends as soon as the
fuel allows enough doublings to reach the ceiling. -/
theorem growLoop_some (fuel n : Nat) : ∀ c : Nat, 1 ≤ c → c < MaxSampleCount →
    MaxSampleCount ≤ c * 2 ^ fuel → ∃ r, growLoop fuel n c = some r := by
  induction fuel with
  | zero =>
    intro c _ h2 h3
    simp at h3
    omega
  | succ fuel ih =>
    intro c h1 h2 h3
    have hM : MaxSampleCount = 4096 := rfl
    have hmod : c * 2 % 4294967296 = c * 2 := Nat.mod_eq_of_lt (by omega)
    rw [growLoop, hmod]
    by_cases hc : min (c * 2) MaxSampleCount < n ∧ min (c * 2) MaxSampleCount < MaxSampleCount
    · have h2c : c * 2 < MaxSampleCount := by
        have := hc.2
        omega
      have hmin : min (c * 2) MaxSampleCount = c * 2 := Nat.min_eq_left (Nat.le_of_lt h2c)
      simp only [hc, and_self, if_true]
      rw [hmin]
      exact ih (c * 2) (by omega) h2c (by rw [pow_succ] at h3; rw [Nat.mul_assoc]; rw [Nat.mul_comm 2]; exact h3)
    · simp only [hc, if_false]
      exact ⟨_, rfl⟩

/-- Twelve rounds of fuel are enough for every capacity of at least one. -/
theorem fuel_enough (fuel c : Nat) (hf : 12 ≤ fuel) (hc : 1 ≤ c) :
    MaxSampleCount ≤ c * 2 ^ fuel := by
  have h1 : 2 ^ 12 ≤ 2 ^ fuel := Nat.pow_le_pow_right (by norm_num) hf
  have h2 : 1 * 2 ^ fuel ≤ c * 2 ^ fuel := Nat.mul_le_mul_right _ hc
  have hM : MaxSampleCount = 2 ^ 12 := rfl
  omega

/-- With a capacity of zero the `do`/`while` loop never ends on a non-empty request. -/
theorem growLoop_zero (fuel n : Nat) (hn : 0 < n) : growLoop fuel n 0 = none := by
  induction fuel with
  | zero => rfl
  | succ fuel ih =>
    rw [growLoop]
    have : min (0 * 2 % 4294967296) MaxSampleCount = 0 := by simp
    rw [this]
    simp [hn, MaxSampleCount, ih]

/-! ## The launch loop -/

section Loop

variable {α : Type} [Mul α] [Zero α]

theorem ceil_div_eq (cap N j : Nat) (h1 : j * cap < N) (h2 : N ≤ (j + 1) * cap) :
    (N + cap - 1) / cap = j + 1 := by
  have h3 : (j + 1) * cap = j * cap + cap := Nat.succ_mul j cap
  have h4 : (j + 1 + 1) * cap = (j + 1) * cap + cap := Nat.succ_mul (j + 1) cap
  apply Nat.div_eq_of_lt_le
  · omega
  · omega

theorem map_add_map_add (l : List Nat) (a b : Nat) :
    (l.map (· + a)).map (· + b) = l.map (· + (a + b)) := by
  rw [List.map_map]
  apply List.map_congr_left
  intro x _
  simp only [Function.comp]
  omega

theorem map_add_zero (l : List Nat) : l.map (· + 0) = l := by
  simp

theorem getD_map_add (l : List Nat) (c off : Nat) (h : c < l.length) :
    (l.map (· + off)).getD c 0 = l.getD c 0 + off := by
  simp [List.getD, List.getElem?_map, List.getElem?_eq_getElem h]

theorem launchLoop_zero (input : Memory α) (fuel : Nat) (a b : List Nat)
    (s : GPUGainProcessor α) :
    GPUGainProcessor.launchLoop input fuel a b 0 s = .ok s := by
  cases fuel <;> simp [GPUGainProcessor.launchLoop]

/-- A launch leaves the pointer vectors and every data member but the executor alone, and the
executor keeps its configuration and its processor. -/
theorem launch_frame (input : Memory α) (k : Nat) (a b : List Nat)
    (s s1 : GPUGainProcessor α) (h : s.launch input k a b = some s1) :
    s1.input_ptrs = s.input_ptrs ∧ s1.output_ptrs = s.output_ptrs ∧ s.Frame s1 := by
  unfold GPUGainProcessor.launch at h
  cases he : s.m_process_executor with
  | none => simp [he] at h
  | some e =>
    simp only [he] at h
    split at h
    · simp at h
    · have hcfg : ∀ (p : Processor α), e.processor = some p →
          ((e.ExecuteAsync input k a).RetrieveOutput k b s.output).1.processor = some p ∧
          ((e.ExecuteAsync input k a).RetrieveOutput k b s.output).1.config = e.config := by
        intro p hep
        simp [ProcessExecutor.RetrieveOutput, ProcessExecutor.ExecuteAsync, hep]
      cases hm : s.mode
      · rw [hm] at h
        simp only [Option.some.injEq] at h
        subst h
        refine ⟨rfl, rfl, rfl, hm.symm, rfl, rfl, rfl, rfl, rfl, ?_⟩
        intro hc
        refine ⟨fun ha => ?_, fun ha => ?_, hc.2.2.1, hc.2.2.2⟩
        · have := (hc.1 ha).2
          simp [he] at this
        · obtain ⟨p, e1, hp, he1, hep, hec⟩ := hc.2.1 ha
          rw [he] at he1
          cases he1
          exact ⟨p, _, hp, rfl, hep, hec⟩
      · rw [hm] at h
        simp only [Option.some.injEq] at h
        subst h
        refine ⟨rfl, rfl, rfl, hm.symm, rfl, rfl, rfl, rfl, rfl, ?_⟩
        intro hc
        refine ⟨fun ha => ?_, fun ha => ?_, hc.2.2.1, hc.2.2.2⟩
        · have := (hc.1 ha).2
          simp [he] at this
        · obtain ⟨p, e1, hp, he1, hep, hec⟩ := hc.2.1 ha
          rw [he] at he1
          cases he1
          exact ⟨p, _, hp, rfl, (hcfg p hep).1, (hcfg p hep).2.trans hec⟩

theorem Frame.refl (s : GPUGainProcessor α) : s.Frame s :=
  ⟨rfl, rfl, rfl, rfl, rfl, rfl, rfl, id⟩

theorem Frame.trans {s s1 s2 : GPUGainProcessor α} (h1 : s.Frame s1) (h2 : s1.Frame s2) :
    s.Frame s2 := by
  obtain ⟨a1, a2, a3, a4, a5, a6, a7, a8⟩ := h1
  obtain ⟨b1, b2, b3, b4, b5, b6, b7, b8⟩ := h2
  exact ⟨b1.trans a1, b2.trans a2, b3.trans a3, b4.trans a4, b5.trans a5, b6.trans a6,
    b7.trans a7, fun h => b8 (a8 h)⟩

theorem Frame.pointers (s : GPUGainProcessor α) (ip op : List Nat) :
    s.Frame { s with input_ptrs := ip, output_ptrs := op } :=
  ⟨rfl, rfl, rfl, rfl, rfl, rfl, rfl, fun h => h⟩

/-- Whenever the launch loop comes back, it has left the data members alone. -/
theorem launchLoop_frame (input : Memory α) (fuel : Nat) :
    ∀ (a b : List Nat) (rem : Nat) (s s1 : GPUGainProcessor α),
      (GPUGainProcessor.launchLoop input fuel a b rem s).state? = some s1 → s.Frame s1 := by
  induction fuel with
  | zero =>
    intro a b rem s s1 h
    rw [GPUGainProcessor.launchLoop] at h
    split at h
    · simp only [Outcome.state?, Option.some.injEq] at h
      subst h
      exact Frame.refl s
    · simp [Outcome.state?] at h
  | succ fuel ih =>
    intro a b rem s s1 h
    rw [GPUGainProcessor.launchLoop] at h
    split at h
    · simp only [Outcome.state?, Option.some.injEq] at h
      subst h
      exact Frame.refl s
    · split at h
      · simp [Outcome.state?] at h
      · rename_i s2 hl
        have hfr := (launch_frame input _ _ _ s s2 hl).2.2
        split at h
        · exact Frame.trans (Frame.trans hfr (Frame.pointers s2 _ _)) (ih _ _ _ _ _ h)
        · exact Frame.trans hfr (ih _ _ _ _ _ h)

/-- Invariant rule for the launch loop. `I j` is what holds after `j` launches of a request of
`N` samples at capacity `cap ≥ 1`; the loop ends after `ceil (N / cap)` launches provided the
fuel covers the request. `bi` and `bo` are the channel pointers at the start of the request. -/
theorem launchLoop_rule (input : Memory α) (bi bo : List Nat) (cap N : Nat) (hcap : 1 ≤ cap)
    (I : Nat → GPUGainProcessor α → Prop)
    (hcfg : ∀ j s, I j s → s.m_executor_config.max_samples_per_channel = cap)
    (hptr : ∀ j s ip op, I j s → I j { s with input_ptrs := ip, output_ptrs := op })
    (hstep : ∀ j s, j * cap < N → I j s →
      ∃ s1, s.launch input (min cap (N - j * cap)) (bi.map (· + j * cap))
        (bo.map (· + j * cap)) = some s1 ∧ I (j + 1) s1) :
    ∀ fuel j (s : GPUGainProcessor α), N - j * cap ≤ fuel →
      (j * cap < N ∨ j = (N + cap - 1) / cap) → I j s →
      (cap < N - j * cap →
        s.input_ptrs = bi.map (· + j * cap) ∧ s.output_ptrs = bo.map (· + j * cap)) →
      ∃ s1, GPUGainProcessor.launchLoop input fuel (bi.map (· + j * cap))
          (bo.map (· + j * cap)) (N - j * cap) s = .ok s1 ∧ I ((N + cap - 1) / cap) s1 := by
  intro fuel
  induction fuel with
  | zero =>
    intro j s hf hj hI _
    have h0 : N - j * cap = 0 := by omega
    have hjm : j = (N + cap - 1) / cap := by
      rcases hj with hj | hj
      · omega
      · exact hj
    rw [h0, launchLoop_zero]
    exact ⟨s, rfl, hjm ▸ hI⟩
  | succ fuel ih =>
    intro j s hf hj hI hp
    have hsucc : (j + 1) * cap = j * cap + cap := Nat.succ_mul j cap
    by_cases h0 : N - j * cap = 0
    · have hjm : j = (N + cap - 1) / cap := by
        rcases hj with hj | hj
        · omega
        · exact hj
      rw [h0, launchLoop_zero]
      exact ⟨s, rfl, hjm ▸ hI⟩
    · have hlt : j * cap < N := by omega
      obtain ⟨s1, hl, hI1⟩ := hstep j s hlt hI
      obtain ⟨hf1, hf2, -⟩ := launch_frame input _ _ _ s s1 hl
      have hc := hcfg j s hI
      have hrem : N - j * cap - min cap (N - j * cap) = N - (j + 1) * cap := by
        rw [hsucc]; omega
      rw [GPUGainProcessor.launchLoop]
      simp only [h0, if_false, hc, hl, hrem]
      by_cases h1 : N - (j + 1) * cap = 0
      · simp only [h1, ne_eq, not_true_eq_false, if_false]
        rw [launchLoop_zero]
        refine ⟨s1, rfl, ?_⟩
        rw [ceil_div_eq cap N j hlt (by omega)]
        exact hI1
      · have hbig : cap < N - j * cap := by omega
        have hmin : min cap (N - j * cap) = cap := Nat.min_eq_left (Nat.le_of_lt hbig)
        obtain ⟨hp1, hp2⟩ := hp hbig
        simp only [h1, ne_eq, not_false_eq_true, if_true, hmin, hf1, hf2, hp1, hp2,
          map_add_map_add]
        have hoff : j * cap + cap = (j + 1) * cap := hsucc.symm
        rw [hoff]
        have hI2 := hptr (j + 1) s1 (bi.map (· + (j + 1) * cap)) (bo.map (· + (j + 1) * cap)) hI1
        exact ih (j + 1) _ (by omega) (Or.inl (by omega)) hI2 (fun _ => ⟨rfl, rfl⟩)

end Loop

/-! ## The lifecycle and the growth step -/

section Lifecycle

variable {α : Type} [Mul α] [Zero α]

theorem create_consistent [One α] (mode : ExecutionMode) (nchannels capacity : Nat)
    (output : Memory α) :
    (GPUGainProcessor.create mode nchannels capacity output).Consistent := by
  simp [GPUGainProcessor.Consistent, GPUGainProcessor.create]

theorem arm_of_armed (s : GPUGainProcessor α) (r : CreateProcessorResult)
    (h : s.m_armed = true) : s.arm r = .ok s := by
  simp [GPUGainProcessor.arm, h]

theorem arm_created (s : GPUGainProcessor α) (hd : Nat) (h : s.m_armed = false) :
    s.arm (.returned (some hd)) = .ok { s with
      m_processor := some ⟨hd, s.gain_value⟩
      m_process_executor :=
        some (ProcessExecutor.new s.mode (some ⟨hd, s.gain_value⟩) s.m_executor_config)
      m_armed := true
      calls := s.calls ++ [.CreateProcessor (.returned (some hd)),
        .NewExecutor s.m_executor_config] } := by
  simp [GPUGainProcessor.arm, h]

/-- Whatever the backend answers, `arm` keeps the lifecycle invariant and touches neither the
configuration nor the mode, the gain, the growth flag or the output memory. -/
theorem arm_state (s s1 : GPUGainProcessor α) (r : CreateProcessorResult)
    (h : (s.arm r).state? = some s1) :
    s1.m_executor_config = s.m_executor_config ∧ s1.mode = s.mode ∧
    s1.m_nchannels = s.m_nchannels ∧ s1.gain_value = s.gain_value ∧
    s1.m_buffer_growth_enabled = s.m_buffer_growth_enabled ∧ s1.output = s.output ∧
    (s.Consistent → s1.Consistent) := by
  unfold GPUGainProcessor.arm at h
  cases ha : s.m_armed
  · rcases r with _ | _ | hd
    · simp only [ha, Bool.not_false, if_true, Outcome.state?, Option.some.injEq] at h
      subst h
      refine ⟨rfl, rfl, rfl, rfl, rfl, rfl, fun hc => ?_⟩
      exact ⟨fun _ => hc.1 ha, fun hb => by simp [ha] at hb, hc.2.2.1, hc.2.2.2⟩
    · simp only [ha, Bool.not_false, if_true, Outcome.state?, Option.some.injEq] at h
      subst h
      refine ⟨rfl, rfl, rfl, rfl, rfl, rfl, fun hc => ?_⟩
      exact ⟨fun _ => ⟨rfl, (hc.1 ha).2⟩, fun hb => by simp [ha] at hb, hc.2.2.1, hc.2.2.2⟩
    · simp only [ha, Bool.not_false, if_true, Outcome.state?, Option.some.injEq] at h
      subst h
      refine ⟨rfl, rfl, rfl, rfl, rfl, rfl, fun hc => ?_⟩
      exact ⟨fun hb => by simp at hb, fun _ => ⟨_, _, rfl, rfl, rfl, rfl⟩, hc.2.2.1, hc.2.2.2⟩
  · simp only [ha, Bool.not_true, Bool.false_eq_true, if_false, Outcome.state?,
      Option.some.injEq] at h
    subst h
    exact ⟨rfl, rfl, rfl, rfl, rfl, rfl, id⟩

theorem arm_ok_armed (s s1 : GPUGainProcessor α) (r : CreateProcessorResult)
    (h : s.arm r = .ok s1) : s1.m_armed = true := by
  unfold GPUGainProcessor.arm at h
  cases ha : s.m_armed
  · rcases r with _ | _ | hd <;> simp [ha] at h
    subst h
    rfl
  · simp [ha] at h
    subst h
    exact ha

theorem disarm_consistent (s : GPUGainProcessor α) (hc : s.Consistent) :
    s.disarm.Consistent := by
  unfold GPUGainProcessor.disarm
  cases ha : s.m_armed
  · simpa using hc
  · simp only [if_true]
    refine ⟨fun _ => ?_, fun hb => by simp at hb, ?_, ?_⟩
    · unfold GPUGainProcessor.deleteProcessor GPUGainProcessor.deleteExecutor
      cases he : s.m_process_executor <;> cases hp : s.m_processor <;> simp [he, hp]
    · unfold GPUGainProcessor.deleteProcessor GPUGainProcessor.deleteExecutor
      cases he : s.m_process_executor <;> cases hp : s.m_processor <;> simp [he, hp] <;>
        exact hc.2.2.1
    · unfold GPUGainProcessor.deleteProcessor GPUGainProcessor.deleteExecutor
      cases he : s.m_process_executor <;> cases hp : s.m_processor <;> simp [he, hp] <;>
        exact hc.2.2.2

/-- The fields of the state after `renewExecutor`. -/
theorem renewExecutor_fields (s : GPUGainProcessor α) :
    s.renewExecutor.mode = s.mode ∧ s.renewExecutor.m_armed = s.m_armed ∧
    s.renewExecutor.m_nchannels = s.m_nchannels ∧
    s.renewExecutor.gain_value = s.gain_value ∧
    s.renewExecutor.m_processor = s.m_processor ∧
    s.renewExecutor.m_buffer_growth_enabled = s.m_buffer_growth_enabled ∧
    s.renewExecutor.m_executor_config = s.m_executor_config ∧
    s.renewExecutor.input_ptrs = s.input_ptrs ∧ s.renewExecutor.output_ptrs = s.output_ptrs ∧
    s.renewExecutor.output = s.output ∧
    s.renewExecutor.m_process_executor =
      some (ProcessExecutor.new s.mode s.m_processor s.m_executor_config) := by
  unfold GPUGainProcessor.renewExecutor GPUGainProcessor.deleteExecutor
  cases s.m_process_executor <;> simp

theorem renewExecutor_consistent (s : GPUGainProcessor α) (p : Processor α)
    (ha : s.m_armed = true) (hp : s.m_processor = some p)
    (h1 : s.m_executor_config.nchannels_in = s.m_nchannels)
    (h2 : s.m_executor_config.nchannels_out = s.m_nchannels) : s.renewExecutor.Consistent := by
  obtain ⟨-, f2, f3, -, f5, -, f7, -, -, -, f11⟩ := renewExecutor_fields s
  refine ⟨fun hb => ?_, fun _ => ⟨p, _, f5.trans hp, f11, ?_, ?_⟩, ?_, ?_⟩
  · rw [f2, ha] at hb
    simp at hb
  · simp [ProcessExecutor.new, hp]
  · rw [f7]
    simp [ProcessExecutor.new]
  · rw [f7, f3]
    exact h1
  · rw [f7, f3]
    exact h2

/-- The backend calls of `renewExecutor` on a processor that holds an executor: the old executor
is deleted, then one new executor is built. -/
theorem renewExecutor_calls (s : GPUGainProcessor α) (e : ProcessExecutor α)
    (h : s.m_process_executor = some e) :
    s.renewExecutor.calls = s.calls ++ [.DeleteExecutor, .NewExecutor s.m_executor_config] := by
  unfold GPUGainProcessor.renewExecutor GPUGainProcessor.deleteExecutor
  simp [h]

/-- Case analysis of the growth step: either the guard is false and nothing happens, or the
capacity becomes the clipped term `min (c * 2 ^ j) 4096` described by `growLoop_form` and the
executor is renewed. -/
theorem growthStep_cases (fuel : Nat) (n : Int) (s s2 : GPUGainProcessor α)
    (h : (s.growthStep fuel n).state? = some s2) :
    (¬ (s.m_buffer_growth_enabled = true ∧
        s.m_executor_config.max_samples_per_channel < toU32 n ∧
        s.m_executor_config.max_samples_per_channel < MaxSampleCount) ∧ s2 = s) ∨
    ((s.m_buffer_growth_enabled = true ∧
        s.m_executor_config.max_samples_per_channel < toU32 n ∧
        s.m_executor_config.max_samples_per_channel < MaxSampleCount) ∧
      ∃ j, 1 ≤ j ∧
        (toU32 n ≤ s.m_executor_config.max_samples_per_channel * 2 ^ j ∨
          MaxSampleCount ≤ s.m_executor_config.max_samples_per_channel * 2 ^ j) ∧
        (∀ i, 1 ≤ i → i < j → s.m_executor_config.max_samples_per_channel * 2 ^ i < toU32 n ∧
          s.m_executor_config.max_samples_per_channel * 2 ^ i < MaxSampleCount) ∧
        (∀ i, i < j → s.m_executor_config.max_samples_per_channel * 2 ^ i * 2 < 4294967296) ∧
        s2 = (s.withCapacity
          (min (s.m_executor_config.max_samples_per_channel * 2 ^ j)
            MaxSampleCount)).renewExecutor) := by
  unfold GPUGainProcessor.growthStep at h
  by_cases hg : s.m_buffer_growth_enabled = true ∧
      s.m_executor_config.max_samples_per_channel < toU32 n ∧
      s.m_executor_config.max_samples_per_channel < MaxSampleCount
  · right
    refine ⟨hg, ?_⟩
    rw [if_pos hg] at h
    cases hl : growLoop fuel (toU32 n) s.m_executor_config.max_samples_per_channel with
    | none => simp [hl, Outcome.state?] at h
    | some r =>
      simp only [hl, Outcome.state?, Option.some.injEq] at h
      obtain ⟨j, hj1, hj2, hj3, hj4, hj5⟩ := growLoop_form fuel _ _ r hg.2.2 hl
      exact ⟨j, hj1, hj3, hj4, hj5, by rw [← h, hj2]⟩
  · left
    rw [if_neg hg] at h
    simp only [Outcome.state?, Option.some.injEq] at h
    exact ⟨hg, h.symm⟩

/-- With a capacity of at least one and twelve rounds of fuel the growth step returns. -/
theorem growthStep_ok (fuel : Nat) (n : Int) (s : GPUGainProcessor α) (hf : 12 ≤ fuel)
    (hc : 1 ≤ s.m_executor_config.max_samples_per_channel) :
    ∃ s2, s.growthStep fuel n = .ok s2 := by
  unfold GPUGainProcessor.growthStep
  by_cases hg : s.m_buffer_growth_enabled = true ∧
      s.m_executor_config.max_samples_per_channel < toU32 n ∧
      s.m_executor_config.max_samples_per_channel < MaxSampleCount
  · rw [if_pos hg]
    obtain ⟨r, hr⟩ := growLoop_some fuel (toU32 n) _ hc hg.2.2 (fuel_enough fuel _ hf hc)
    rw [hr]
    exact ⟨_, rfl⟩
  · rw [if_neg hg]
    exact ⟨_, rfl⟩

/-- What the growth step leaves alone, and what it does to the capacity. -/
theorem growthStep_state (fuel : Nat) (n : Int) (s s2 : GPUGainProcessor α)
    (h : (s.growthStep fuel n).state? = some s2) :
    s2.mode = s.mode ∧ s2.m_armed = s.m_armed ∧ s2.m_nchannels = s.m_nchannels ∧
    s2.gain_value = s.gain_value ∧ s2.m_processor = s.m_processor ∧
    s2.m_buffer_growth_enabled = s.m_buffer_growth_enabled ∧ s2.output = s.output ∧
    s2.m_executor_config.nchannels_in = s.m_executor_config.nchannels_in ∧
    s2.m_executor_config.nchannels_out = s.m_executor_config.nchannels_out ∧
    (s2.m_executor_config.max_samples_per_channel = s.m_executor_config.max_samples_per_channel ∨
      (s.m_executor_config.max_samples_per_channel < MaxSampleCount ∧ ∃ j, 1 ≤ j ∧
        s2.m_executor_config.max_samples_per_channel =
          min (s.m_executor_config.max_samples_per_channel * 2 ^ j) MaxSampleCount)) ∧
    (s.Consistent → s.m_armed = true → s2.Consistent) := by
  rcases growthStep_cases fuel n s s2 h with ⟨_, rfl⟩ | ⟨hg, j, hj1, _, _, _, rfl⟩
  · exact ⟨rfl, rfl, rfl, rfl, rfl, rfl, rfl, rfl, rfl, Or.inl rfl, fun hc _ => hc⟩
  · obtain ⟨f1, f2, f3, f4, f5, f6, f7, -, -, f10, f11⟩ := renewExecutor_fields
      (s.withCapacity (min (s.m_executor_config.max_samples_per_channel * 2 ^ j) MaxSampleCount))
    refine ⟨f1, f2, f3, f4, f5, f6, f10, by rw [f7]; rfl, by rw [f7]; rfl,
      Or.inr ⟨hg.2.2, j, hj1, by rw [f7]; rfl⟩, fun hc ha => ?_⟩
    obtain ⟨p, e, hp, -, -, -⟩ := hc.2.1 ha
    exact renewExecutor_consistent _ p ha hp hc.2.2.1 hc.2.2.2

end Lifecycle

/-! ## The structure of `process` and of a public operation -/

section Process

variable {α : Type} [Mul α] [Zero α]

theorem copyPointers_frame (s : GPUGainProcessor α) (a b : List Nat) (n : Int) :
    s.Frame (s.copyPointers a b n) ∧ (s.copyPointers a b n).output = s.output ∧
    (s.copyPointers a b n).calls = s.calls ∧
    (s.copyPointers a b n).m_process_executor = s.m_process_executor := by
  unfold GPUGainProcessor.copyPointers
  split
  · exact ⟨Frame.pointers s _ _, rfl, rfl, rfl⟩
  · exact ⟨Frame.refl s, rfl, rfl, rfl⟩

/-- The three parts of `process`, once the implicit `arm` and the growth step have returned. -/
theorem process_of_ok (fuel : Nat) (r : CreateProcessorResult) (input : Memory α)
    (a b : List Nat) (n : Int) (s s1 s2 : GPUGainProcessor α)
    (h1 : (if !s.m_armed then s.arm r else .ok s) = .ok s1)
    (h2 : s1.growthStep fuel n = .ok s2) :
    s.process fuel r input a b n =
      GPUGainProcessor.launchLoop input fuel a b (toU32 n) (s2.copyPointers a b n) := by
  simp only [GPUGainProcessor.process, h1, Outcome.andThen, h2]

theorem growthStep_never_throws (fuel : Nat) (n : Int) (s s1 : GPUGainProcessor α) (e : Error) :
    s.growthStep fuel n ≠ .throw e s1 := by
  unfold GPUGainProcessor.growthStep
  split
  · split <;> simp
  · simp

/-- Whenever `process` comes back, either the implicit `arm` has thrown, or the call went
through the implicit `arm`, the growth step and the launch loop. -/
theorem process_state (fuel : Nat) (r : CreateProcessorResult) (input : Memory α)
    (a b : List Nat) (n : Int) (s s3 : GPUGainProcessor α)
    (h : (s.process fuel r input a b n).state? = some s3) :
    (∃ e, s.m_armed = false ∧ s.arm r = .throw e s3 ∧
      s.process fuel r input a b n = .throw e s3) ∨
    (∃ s1 s2, (if !s.m_armed then s.arm r else .ok s) = .ok s1 ∧
      s1.growthStep fuel n = .ok s2 ∧
      (GPUGainProcessor.launchLoop input fuel a b (toU32 n)
        (s2.copyPointers a b n)).state? = some s3) := by
  unfold GPUGainProcessor.process at h
  cases h1 : (if !s.m_armed then s.arm r else Outcome.ok s) with
  | ok s1 =>
    rw [h1] at h
    simp only [Outcome.andThen] at h
    cases h2 : s1.growthStep fuel n with
    | ok s2 =>
      rw [h2] at h
      exact Or.inr ⟨s1, s2, rfl, h2, h⟩
    | throw e s2 => exact absurd h2 (growthStep_never_throws fuel n s1 s2 e)
    | diverge => rw [h2] at h; simp [Outcome.state?] at h
    | fault => rw [h2] at h; simp [Outcome.state?] at h
  | throw e s1 =>
    rw [h1] at h
    simp only [Outcome.andThen, Outcome.state?, Option.some.injEq] at h
    subst h
    left
    cases ha : s.m_armed
    · rw [ha] at h1
      simp only [Bool.not_false, if_true] at h1
      refine ⟨e, rfl, h1, ?_⟩
      simp [GPUGainProcessor.process, ha, h1, Outcome.andThen]
    · rw [ha] at h1
      simp at h1
  | diverge => rw [h1] at h; simp [Outcome.andThen, Outcome.state?] at h
  | fault => rw [h1] at h; simp [Outcome.andThen, Outcome.state?] at h

theorem armIfNeeded_state (r : CreateProcessorResult) (s s1 : GPUGainProcessor α)
    (h : (if !s.m_armed then s.arm r else .ok s) = .ok s1) :
    s1.m_armed = true ∧ s1.m_executor_config = s.m_executor_config ∧ s1.mode = s.mode ∧
    s1.m_nchannels = s.m_nchannels ∧ s1.m_buffer_growth_enabled = s.m_buffer_growth_enabled ∧
    s1.output = s.output ∧ (s.Consistent → s1.Consistent) := by
  cases ha : s.m_armed
  · rw [ha] at h
    simp only [Bool.not_false, if_true] at h
    obtain ⟨f1, f2, f3, -, f5, f6, f7⟩ := arm_state s s1 r (by rw [h]; rfl)
    exact ⟨arm_ok_armed s s1 r h, f1, f2, f3, f5, f6, f7⟩
  · rw [ha] at h
    simp only [Bool.not_true, Bool.false_eq_true, if_false, Outcome.ok.injEq] at h
    subst h
    exact ⟨ha, rfl, rfl, rfl, rfl, rfl, id⟩

/-- What one public operation that comes back does to the mode, the channel count, the
capacity and the lifecycle invariant. -/
theorem step_state (fuel : Nat) (op : Op α) (s s1 : GPUGainProcessor α)
    (h : (s.step fuel op).state? = some s1) :
    s1.mode = s.mode ∧ s1.m_nchannels = s.m_nchannels ∧
    (s1.m_executor_config.max_samples_per_channel = s.m_executor_config.max_samples_per_channel ∨
      (s.m_executor_config.max_samples_per_channel < MaxSampleCount ∧ ∃ j, 1 ≤ j ∧
        s1.m_executor_config.max_samples_per_channel =
          min (s.m_executor_config.max_samples_per_channel * 2 ^ j) MaxSampleCount)) ∧
    (s.Consistent → s1.Consistent) := by
  cases op with
  | arm r =>
    obtain ⟨f1, f2, f3, -, -, -, f7⟩ := arm_state s s1 r h
    exact ⟨f2, f3, Or.inl (by rw [f1]), f7⟩
  | disarm =>
    simp only [GPUGainProcessor.step, Outcome.state?, Option.some.injEq] at h
    subst h
    refine ⟨?_, ?_, Or.inl ?_, disarm_consistent s⟩ <;>
    · unfold GPUGainProcessor.disarm GPUGainProcessor.deleteProcessor
        GPUGainProcessor.deleteExecutor
      cases s.m_armed <;> cases s.m_process_executor <;> cases hp : s.m_processor <;> simp [hp]
  | set_gain g =>
    simp only [GPUGainProcessor.step, GPUGainProcessor.set_gain] at h
    cases ha : s.m_armed
    · simp only [ha, Bool.not_false, if_true, Outcome.state?, Option.some.injEq] at h
      subst h
      exact ⟨rfl, rfl, Or.inl rfl, fun hc => by simpa [GPUGainProcessor.Consistent, ha] using hc⟩
    · simp only [ha, Bool.not_true, Bool.false_eq_true, if_false, Outcome.state?,
        Option.some.injEq] at h
      subst h
      exact ⟨rfl, rfl, Or.inl rfl, id⟩
  | enable_buffer_growth b =>
    simp only [GPUGainProcessor.step, Outcome.state?, Option.some.injEq] at h
    subst h
    exact ⟨rfl, rfl, Or.inl rfl, id⟩
  | get_latency =>
    simp only [GPUGainProcessor.step, Outcome.state?, Option.some.injEq] at h
    subst h
    exact ⟨rfl, rfl, Or.inl rfl, id⟩
  | process r input a b n =>
    simp only [GPUGainProcessor.step] at h
    rcases process_state fuel r input a b n s s1 h with ⟨e, -, h1, -⟩ | ⟨s2, s3, h1, h2, h3⟩
    · obtain ⟨f1, f2, f3, -, -, -, f7⟩ := arm_state s s1 r (by rw [h1]; rfl)
      exact ⟨f2, f3, Or.inl (by rw [f1]), f7⟩
    · obtain ⟨a1, a2, a3, a4, -, -, a7⟩ := armIfNeeded_state r s s2 h1
      obtain ⟨g1, -, g3, -, -, -, -, -, -, g10, g11⟩ :=
        growthStep_state fuel n s2 s3 (by rw [h2]; rfl)
      obtain ⟨c1, c2, -, c4, -, -, -, c8⟩ :=
        Frame.trans (copyPointers_frame s3 a b n).1 (launchLoop_frame input fuel _ _ _ _ _ h3)
      refine ⟨c2.trans (g1.trans a3), c4.trans (g3.trans a4), ?_, fun hc => c8 (g11 (a7 hc) a1)⟩
      rw [c1, ← a2]
      exact g10

end Process

/-! ## Effect of the launches -/

section Launches

variable {α : Type} [Mul α] [Zero α]

/-- On an armed, consistent processor a launch of at most the capacity goes through, and makes
the backend calls of its mode. -/
theorem launch_ok (input : Memory α) (k : Nat) (a b : List Nat) (t : GPUGainProcessor α)
    (hc : t.Consistent) (ha : t.m_armed = true)
    (hk : k ≤ t.m_executor_config.max_samples_per_channel) :
    ∃ t1, t.launch input k a b = some t1 ∧ t1.calls = t.calls ++ launchCalls t.mode k a b := by
  obtain ⟨p, e, -, he, -, hec⟩ := hc.2.1 ha
  have hk1 : ¬ e.config.max_samples_per_channel < k := by rw [hec]; omega
  unfold GPUGainProcessor.launch
  simp only [he, hk1, if_false]
  cases hm : t.mode
  · exact ⟨_, rfl, by simp [launchCalls]⟩
  · exact ⟨_, rfl, by simp [launchCalls]⟩

/-- The output memory after one synchronous launch. -/
theorem launch_sync_output (input : Memory α) (k : Nat) (a b : List Nat)
    (t t1 : GPUGainProcessor α) (p : Processor α)
    (hc : t.Consistent) (ha : t.m_armed = true) (hm : t.mode = .eSync)
    (hp : t.m_processor = some p) (h : t.launch input k a b = some t1) :
    t1.output = fun c i =>
      if c < t.m_nchannels ∧ b.getD c 0 ≤ i ∧ i < b.getD c 0 + k then
        p.gain_value * input c (a.getD c 0 + (i - b.getD c 0))
      else t.output c i := by
  obtain ⟨p1, e, hp1, he, hep, hec⟩ := hc.2.1 ha
  rw [hp] at hp1
  cases hp1
  unfold GPUGainProcessor.launch at h
  simp only [he, hm] at h
  split at h
  · simp at h
  · simp only [Option.some.injEq] at h
    subst h
    funext c i
    simp only [ProcessExecutor.Execute, hep, hec, hc.2.2.2]

/-- The executor queues and the output memory after one double-buffered launch. -/
theorem launch_async_output (input : Memory α) (k : Nat) (a b : List Nat)
    (t t1 : GPUGainProcessor α) (p : Processor α) (e : ProcessExecutor α)
    (hc : t.Consistent) (ha : t.m_armed = true) (hm : t.mode = .eAsync)
    (hp : t.m_processor = some p) (he : t.m_process_executor = some e)
    (h : t.launch input k a b = some t1) :
    (∃ e1, t1.m_process_executor = some e1 ∧ ∀ c, c < t.m_nchannels →
      e1.pipeline c = (e.pipeline c ++ (List.range k).map
        (fun i => p.gain_value * input c (a.getD c 0 + i))).drop k) ∧
    t1.output = fun c i =>
      if c < t.m_nchannels ∧ b.getD c 0 ≤ i ∧ i < b.getD c 0 + k then
        (e.pipeline c ++ (List.range k).map
          (fun i => p.gain_value * input c (a.getD c 0 + i))).getD (i - b.getD c 0) 0
      else t.output c i := by
  obtain ⟨p1, e0, hp1, he0, hep, hec⟩ := hc.2.1 ha
  rw [hp] at hp1
  cases hp1
  rw [he] at he0
  cases he0
  unfold GPUGainProcessor.launch at h
  simp only [he, hm] at h
  split at h
  · simp at h
  · simp only [Option.some.injEq] at h
    subst h
    refine ⟨⟨_, rfl, ?_⟩, ?_⟩
    · intro c hcn
      simp [ProcessExecutor.RetrieveOutput, ProcessExecutor.ExecuteAsync, hep, hec, hc.2.2.1,
        hc.2.2.2, hcn]
    · funext c i
      by_cases hcn : c < t.m_nchannels
      · simp [ProcessExecutor.RetrieveOutput, ProcessExecutor.ExecuteAsync, hep, hec, hc.2.2.1,
          hc.2.2.2, hcn]
      · simp [ProcessExecutor.RetrieveOutput, ProcessExecutor.ExecuteAsync, hep, hec, hc.2.2.1,
          hc.2.2.2, hcn]

/-- The launch loop on an armed, consistent processor of capacity at least one: it returns,
and has made exactly the launches of the chunking rule. -/
theorem launchLoop_calls (input : Memory α) (s : GPUGainProcessor α) (bi bo : List Nat)
    (N fuel : Nat) (hc : s.Consistent) (ha : s.m_armed = true)
    (hcap : 1 ≤ s.m_executor_config.max_samples_per_channel) (hf : N ≤ fuel)
    (hp : s.m_executor_config.max_samples_per_channel < N →
      s.input_ptrs = bi ∧ s.output_ptrs = bo) :
    ∃ s1, GPUGainProcessor.launchLoop input fuel bi bo N s = .ok s1 ∧ s.Frame s1 ∧
      s1.calls = s.calls ++
        expectedLaunches s.mode s.m_executor_config.max_samples_per_channel N bi bo := by
  have key := launchLoop_rule input bi bo s.m_executor_config.max_samples_per_channel N hcap
    (fun j t => s.Frame t ∧ t.calls = s.calls ++ (List.range j).flatMap fun i =>
      launchCalls s.mode (min s.m_executor_config.max_samples_per_channel
        (N - i * s.m_executor_config.max_samples_per_channel))
        (bi.map (· + i * s.m_executor_config.max_samples_per_channel))
        (bo.map (· + i * s.m_executor_config.max_samples_per_channel)))
    (fun j t hI => by rw [hI.1.1])
    (fun j t ip op hI => ⟨Frame.trans hI.1 (Frame.pointers t ip op), hI.2⟩)
    (fun j t hj hI => by
      obtain ⟨hfr, hcalls⟩ := hI
      have htc : t.Consistent := hfr.2.2.2.2.2.2.2 hc
      have hta : t.m_armed = true := hfr.2.2.1.trans ha
      obtain ⟨t1, hl, hcl⟩ := launch_ok input
        (min s.m_executor_config.max_samples_per_channel
          (N - j * s.m_executor_config.max_samples_per_channel))
        (bi.map (· + j * s.m_executor_config.max_samples_per_channel))
        (bo.map (· + j * s.m_executor_config.max_samples_per_channel)) t htc hta
        (by rw [hfr.1]; exact Nat.min_le_left _ _)
      refine ⟨t1, hl, Frame.trans hfr (launch_frame input _ _ _ t t1 hl).2.2, ?_⟩
      rw [hcl, hcalls, List.range_succ, List.flatMap_append, List.append_assoc, hfr.2.1]
      simp)
    fuel 0 s (by simpa using hf) (by
      rcases Nat.eq_zero_or_pos N with h0 | h0
      · right
        subst h0
        rw [Nat.zero_add]
        exact (Nat.div_eq_of_lt (by omega)).symm
      · left
        simpa using h0)
    ⟨Frame.refl s, by simp⟩
    (by simpa using hp)
  simp only [Nat.zero_mul, Nat.add_zero, List.map_id', Nat.sub_zero] at key
  obtain ⟨s1, h1, h2, h3⟩ := key
  exact ⟨s1, h1, h2, h3⟩

theorem le_ceil_mul (cap N : Nat) (hcap : 1 ≤ cap) : N ≤ (N + cap - 1) / cap * cap := by
  have h1 := Nat.div_add_mod (N + cap - 1) cap
  have h2 := Nat.mod_lt (N + cap - 1) (show cap > 0 by omega)
  rw [Nat.mul_comm] at h1
  omega

/-- The synchronous launch loop on an armed, consistent processor of capacity at least one: it
returns, every channel's first `N` output samples are the gain times the input samples, and
nothing else of the output memory is written. -/
theorem launchLoop_sync (input : Memory α) (s : GPUGainProcessor α) (bi bo : List Nat)
    (N fuel : Nat) (p : Processor α) (hc : s.Consistent) (ha : s.m_armed = true)
    (hm : s.mode = .eSync) (hpr : s.m_processor = some p)
    (hcap : 1 ≤ s.m_executor_config.max_samples_per_channel) (hf : N ≤ fuel)
    (hbi : bi.length = s.m_nchannels) (hbo : bo.length = s.m_nchannels)
    (hp : s.m_executor_config.max_samples_per_channel < N →
      s.input_ptrs = bi ∧ s.output_ptrs = bo) :
    ∃ s1, GPUGainProcessor.launchLoop input fuel bi bo N s = .ok s1 ∧ s.Frame s1 ∧
      s1.output = fun c i =>
        if c < s.m_nchannels ∧ bo.getD c 0 ≤ i ∧ i < bo.getD c 0 + N then
          p.gain_value * input c (bi.getD c 0 + (i - bo.getD c 0))
        else s.output c i := by
  have key := launchLoop_rule input bi bo s.m_executor_config.max_samples_per_channel N hcap
    (fun j t => s.Frame t ∧ t.output = fun c i =>
      if c < s.m_nchannels ∧ bo.getD c 0 ≤ i ∧
          i < bo.getD c 0 + min (j * s.m_executor_config.max_samples_per_channel) N then
        p.gain_value * input c (bi.getD c 0 + (i - bo.getD c 0))
      else s.output c i)
    (fun j t hI => by rw [hI.1.1])
    (fun j t ip op hI => ⟨Frame.trans hI.1 (Frame.pointers t ip op), hI.2⟩)
    (fun j t hj hI => by
      obtain ⟨hfr, hout⟩ := hI
      have htc : t.Consistent := hfr.2.2.2.2.2.2.2 hc
      have hta : t.m_armed = true := hfr.2.2.1.trans ha
      obtain ⟨t1, hl, -⟩ := launch_ok input
        (min s.m_executor_config.max_samples_per_channel
          (N - j * s.m_executor_config.max_samples_per_channel))
        (bi.map (· + j * s.m_executor_config.max_samples_per_channel))
        (bo.map (· + j * s.m_executor_config.max_samples_per_channel)) t htc hta
        (by rw [hfr.1]; exact Nat.min_le_left _ _)
      refine ⟨t1, hl, Frame.trans hfr (launch_frame input _ _ _ t t1 hl).2.2, ?_⟩
      rw [launch_sync_output input _ _ _ t t1 p htc hta (hfr.2.1.trans hm)
        (hfr.2.2.2.2.2.1.trans hpr) hl, hout, hfr.2.2.2.1]
      have hsucc : (j + 1) * s.m_executor_config.max_samples_per_channel =
          j * s.m_executor_config.max_samples_per_channel +
            s.m_executor_config.max_samples_per_channel := Nat.succ_mul _ _
      funext c i
      by_cases hcn : c < s.m_nchannels
      · rw [getD_map_add bi c _ (by omega), getD_map_add bo c _ (by omega), hsucc]
        simp only [hcn, true_and]
        generalize j * s.m_executor_config.max_samples_per_channel = J at hj ⊢
        generalize s.m_executor_config.max_samples_per_channel = C at hcap ⊢
        generalize bo.getD c 0 = B
        generalize bi.getD c 0 = A
        split_ifs with h1 h2 h3 h4 h5
        · congr 2
          omega
        · omega
        · rfl
        · omega
        · omega
        · rfl
      · simp only [hcn, false_and, if_false])
    fuel 0 s (by simpa using hf) (by
      rcases Nat.eq_zero_or_pos N with h0 | h0
      · right
        subst h0
        rw [Nat.zero_add]
        exact (Nat.div_eq_of_lt (by omega)).symm
      · left
        simpa using h0)
    ⟨Frame.refl s, by
      funext c i
      simp only [Nat.zero_mul, Nat.zero_min, Nat.add_zero]
      rw [if_neg (by intro h; omega)]⟩
    (by simpa using hp)
  simp only [Nat.zero_mul, Nat.add_zero, List.map_id', Nat.sub_zero] at key
  obtain ⟨s1, h1, h2, h3⟩ := key
  refine ⟨s1, h1, h2, ?_⟩
  rw [h3, Nat.min_eq_right (le_ceil_mul _ N hcap)]

theorem queue_shift {β : Type} (F G : Nat → β) (X L k : Nat)
    (hG : ∀ i, i < k → G i = F (X + L + i)) :
    ((List.range L).map (fun i => F (X + i)) ++ (List.range k).map G).drop k =
      (List.range L).map (fun i => F (X + k + i)) := by
  apply List.ext_getElem
  · simp
  · intro n h1 h2
    simp only [List.length_map, List.length_range] at h2
    simp only [List.getElem_drop, List.getElem_map, List.getElem_range]
    by_cases hn : k + n < L
    · rw [List.getElem_append_left (by simpa using hn)]
      simp [Nat.add_assoc]
    · rw [List.getElem_append_right (by simpa using hn)]
      simp only [List.getElem_map, List.getElem_range, List.length_map, List.length_range]
      rw [hG _ (by omega)]
      congr 1
      omega

theorem queue_getD {β : Type} [Zero β] (F G : Nat → β) (X L k n : Nat) (hn : n < L) :
    ((List.range L).map (fun i => F (X + i)) ++ (List.range k).map G).getD n 0 = F (X + n) := by
  rw [List.getD_append _ _ _ _ (by simpa using hn)]
  simp [List.getD_eq_getElem?_getD, List.getElem?_range hn]

/-- The double-buffered launch loop on an armed, consistent processor of capacity at least one
whose queues hold the delayed stream from position `T` on: it returns, the queues hold the
delayed stream from position `T + N` on, and the `N` output samples written on every channel
are the delayed stream from position `T` on. -/
theorem launchLoop_async (input : Memory α) (s : GPUGainProcessor α) (bi bo : List Nat)
    (T N fuel : Nat) (p : Processor α) (hc : s.Consistent) (ha : s.m_armed = true)
    (hm : s.mode = .eAsync) (hpr : s.m_processor = some p)
    (hcap : 1 ≤ s.m_executor_config.max_samples_per_channel) (hf : N ≤ fuel)
    (hbi : bi.length = s.m_nchannels) (hbo : bo.length = s.m_nchannels)
    (hq : s.Pipelined input bi p.gain_value T)
    (hp : s.m_executor_config.max_samples_per_channel < N →
      s.input_ptrs = bi.map (· + T) ∧ s.output_ptrs = bo.map (· + T)) :
    ∃ s1, GPUGainProcessor.launchLoop input fuel (bi.map (· + T)) (bo.map (· + T)) N s = .ok s1 ∧
      s.Frame s1 ∧ s1.Pipelined input bi p.gain_value (T + N) ∧
      s1.output = fun c i =>
        if c < s.m_nchannels ∧ bo.getD c 0 + T ≤ i ∧ i < bo.getD c 0 + T + N then
          delayedStream s.m_executor_config.max_samples_per_channel p.gain_value input bi c
            (i - bo.getD c 0)
        else s.output c i := by
  have key := launchLoop_rule input (bi.map (· + T)) (bo.map (· + T))
    s.m_executor_config.max_samples_per_channel N hcap
    (fun j t => s.Frame t ∧
      t.Pipelined input bi p.gain_value
        (T + min (j * s.m_executor_config.max_samples_per_channel) N) ∧
      t.output = fun c i =>
        if c < s.m_nchannels ∧ bo.getD c 0 + T ≤ i ∧
            i < bo.getD c 0 + T + min (j * s.m_executor_config.max_samples_per_channel) N then
          delayedStream s.m_executor_config.max_samples_per_channel p.gain_value input bi c
            (i - bo.getD c 0)
        else s.output c i)
    (fun j t hI => by rw [hI.1.1])
    (fun j t ip op hI => ⟨Frame.trans hI.1 (Frame.pointers t ip op), hI.2.1, hI.2.2⟩)
    (fun j t hj hI => by
      obtain ⟨hfr, ⟨e, he, hpipe⟩, hout⟩ := hI
      have htc : t.Consistent := hfr.2.2.2.2.2.2.2 hc
      have hta : t.m_armed = true := hfr.2.2.1.trans ha
      have htn : t.m_nchannels = s.m_nchannels := hfr.2.2.2.1
      have htcfg : t.m_executor_config = s.m_executor_config := hfr.1
      obtain ⟨t1, hl, -⟩ := launch_ok input
        (min s.m_executor_config.max_samples_per_channel
          (N - j * s.m_executor_config.max_samples_per_channel))
        ((bi.map (· + T)).map (· + j * s.m_executor_config.max_samples_per_channel))
        ((bo.map (· + T)).map (· + j * s.m_executor_config.max_samples_per_channel)) t htc hta
        (by rw [hfr.1]; exact Nat.min_le_left _ _)
      have hfr1 := (launch_frame input _ _ _ t t1 hl).2.2
      obtain ⟨⟨e1, he1, hpipe1⟩, hout1⟩ := launch_async_output input _ _ _ t t1 p e htc hta
        (hfr.2.1.trans hm) (hfr.2.2.2.2.2.1.trans hpr) he hl
      have hsucc : (j + 1) * s.m_executor_config.max_samples_per_channel =
          j * s.m_executor_config.max_samples_per_channel +
            s.m_executor_config.max_samples_per_channel := Nat.succ_mul _ _
      have hmin0 : min (j * s.m_executor_config.max_samples_per_channel) N =
          j * s.m_executor_config.max_samples_per_channel := Nat.min_eq_left (Nat.le_of_lt hj)
      have hmin1 : min ((j + 1) * s.m_executor_config.max_samples_per_channel) N =
          j * s.m_executor_config.max_samples_per_channel +
            min s.m_executor_config.max_samples_per_channel
              (N - j * s.m_executor_config.max_samples_per_channel) := by
        rw [hsucc]; omega
      rw [htcfg, htn, hmin0] at hpipe
      rw [hmin0] at hout
      rw [htn] at hpipe1 hout1
      refine ⟨t1, hl, Frame.trans hfr hfr1, ⟨e1, he1, ?_⟩, ?_⟩
      · intro c hcn
        rw [hfr1.2.2.2.1, htn] at hcn
        rw [hfr1.1, htcfg, hpipe1 c hcn, hpipe c hcn, hmin1, map_add_map_add,
          getD_map_add bi c _ (by omega)]
        have hqs := queue_shift
          (fun t => delayedStream s.m_executor_config.max_samples_per_channel p.gain_value
            input bi c t)
          (fun i => p.gain_value * input c
            (bi.getD c 0 + (T + j * s.m_executor_config.max_samples_per_channel) + i))
          (T + j * s.m_executor_config.max_samples_per_channel)
          s.m_executor_config.max_samples_per_channel
          (min s.m_executor_config.max_samples_per_channel
            (N - j * s.m_executor_config.max_samples_per_channel))
          (by
            intro i _
            simp only [delayedStream]
            rw [if_neg (by omega)]
            congr 2
            omega)
        simpa only [Nat.add_assoc] using hqs
      · rw [hout1, hout, hmin1]
        funext c i
        by_cases hcn : c < s.m_nchannels
        · rw [map_add_map_add, map_add_map_add, getD_map_add bo c _ (by omega), hpipe c hcn]
          simp only [hcn, true_and]
          generalize j * s.m_executor_config.max_samples_per_channel = J at hj ⊢
          split_ifs with h1 h2 h3 h4 h5
          · rw [queue_getD _ _ _ _ _ _ (by omega)]
            congr 1
            omega
          · omega
          · rfl
          · omega
          · omega
          · rfl
        · simp only [hcn, false_and, if_false])
    fuel 0 s (by simpa using hf) (by
      rcases Nat.eq_zero_or_pos N with h0 | h0
      · right
        subst h0
        rw [Nat.zero_add]
        exact (Nat.div_eq_of_lt (by omega)).symm
      · left
        simpa using h0)
    ⟨Frame.refl s, by simpa using hq, by
      funext c i
      simp only [Nat.zero_mul, Nat.zero_min, Nat.add_zero]
      rw [if_neg (by intro h; omega)]⟩
    (by simpa using hp)
  simp only [Nat.zero_mul, Nat.add_zero, List.map_id', Nat.sub_zero] at key
  obtain ⟨s1, h1, h2, h3, h4⟩ := key
  rw [Nat.min_eq_right (le_ceil_mul _ N hcap)] at h3 h4
  exact ⟨s1, h1, h2, h3, h4⟩

/-- One `process` call of an armed double-buffered processor with growth disabled, on the region
of the streams that starts `T` samples after arming. -/
theorem process_async_step (fuel : Nat) (r : CreateProcessorResult) (input : Memory α)
    (s : GPUGainProcessor α) (bi bo : List Nat) (T n : Nat) (p : Processor α)
    (hc : s.Consistent) (ha : s.m_armed = true) (hm : s.mode = .eAsync)
    (hg : s.m_buffer_growth_enabled = false) (hpr : s.m_processor = some p)
    (hcap : 1 ≤ s.m_executor_config.max_samples_per_channel) (hn : n < 4294967296)
    (hf : n ≤ fuel) (hbi : bi.length = s.m_nchannels) (hbo : bo.length = s.m_nchannels)
    (hq : s.Pipelined input bi p.gain_value T) :
    ∃ s1, s.process fuel r input (bi.map (· + T)) (bo.map (· + T)) (Int.ofNat n) = .ok s1 ∧
      s.Frame s1 ∧ s1.Pipelined input bi p.gain_value (T + n) ∧
      s1.output = fun c i =>
        if c < s.m_nchannels ∧ bo.getD c 0 + T ≤ i ∧ i < bo.getD c 0 + T + n then
          delayedStream s.m_executor_config.max_samples_per_channel p.gain_value input bi c
            (i - bo.getD c 0)
        else s.output c i := by
  have hN : toU32 (Int.ofNat n) = n := toU32_ofNat n hn
  have h1 : (if !s.m_armed then s.arm r else .ok s) = .ok s := by simp [ha]
  have h2 : s.growthStep fuel (Int.ofNat n) = .ok s := by
    unfold GPUGainProcessor.growthStep
    rw [if_neg (by simp [hg])]
  obtain ⟨c1, c2, c3, c4⟩ :=
    copyPointers_frame s (bi.map (· + T)) (bo.map (· + T)) (Int.ofNat n)
  have hq1 : (s.copyPointers (bi.map (· + T)) (bo.map (· + T)) (Int.ofNat n)).Pipelined
      input bi p.gain_value T := by
    unfold GPUGainProcessor.copyPointers
    split <;> exact hq
  obtain ⟨s1, l1, l2, l3, l4⟩ := launchLoop_async input
    (s.copyPointers (bi.map (· + T)) (bo.map (· + T)) (Int.ofNat n)) bi bo T n fuel p
    (c1.2.2.2.2.2.2.2 hc) (c1.2.2.1.trans ha) (c1.2.1.trans hm) (c1.2.2.2.2.2.1.trans hpr)
    (by rw [c1.1]; exact hcap) hf (by rw [c1.2.2.2.1]; exact hbi)
    (by rw [c1.2.2.2.1]; exact hbo) hq1
    (by
      intro hlt
      rw [c1.1] at hlt
      unfold GPUGainProcessor.copyPointers
      rw [hN, if_pos hlt]
      simp only
      rw [List.take_of_length_le (by simp; omega), List.take_of_length_le (by simp; omega)]
      exact ⟨rfl, rfl⟩)
  refine ⟨s1, ?_, Frame.trans c1 l2, l3, ?_⟩
  · rw [process_of_ok fuel r input _ _ _ s s s h1 h2, hN]
    exact l1
  · rw [l4, c1.2.2.2.1, c1.1, c2]

theorem process_after_arm (fuel : Nat) (r : CreateProcessorResult) (input : Memory α)
    (a b : List Nat) (n : Int) (s s1 : GPUGainProcessor α) (ha : s.m_armed = false)
    (h : s.arm r = .ok s1) :
    s.process fuel r input a b n = s1.process fuel r input a b n := by
  have h1 := arm_ok_armed s s1 r h
  simp [GPUGainProcessor.process, ha, h, h1, Outcome.andThen]

/-- A newly built double-buffered executor holds the first `capacity` samples of the delayed
stream, that is the pipeline fill. -/
theorem pipelined_after_arm (input : Memory α) (bi : List Nat) (s : GPUGainProcessor α)
    (hd : Nat) (hm : s.mode = .eAsync) :
    ({ s with
        m_processor := some ⟨hd, s.gain_value⟩
        m_process_executor :=
          some (ProcessExecutor.new s.mode (some ⟨hd, s.gain_value⟩) s.m_executor_config)
        m_armed := true
        calls := s.calls ++ [.CreateProcessor (.returned (some hd)),
          .NewExecutor s.m_executor_config] } : GPUGainProcessor α).Pipelined
      input bi s.gain_value 0 := by
  refine ⟨_, rfl, fun c _ => ?_⟩
  simp only [ProcessExecutor.new, hm, delayedStream, Nat.zero_add]
  apply List.ext_getElem
  · simp
  · intro n h1 h2
    simp only [List.length_map, List.length_range] at h2
    simp [h2]

/-- Consecutive `process` calls of an armed double-buffered processor with growth disabled:
all calls return, and the output written is the delayed stream. -/
theorem processConsecutive_async (fuel : Nat) (r : CreateProcessorResult) (input : Memory α)
    (bi bo : List Nat) (p : Processor α) (ns : List Nat) :
    ∀ (T : Nat) (s : GPUGainProcessor α), s.Consistent → s.m_armed = true →
      s.mode = .eAsync → s.m_buffer_growth_enabled = false → s.m_processor = some p →
      1 ≤ s.m_executor_config.max_samples_per_channel →
      bi.length = s.m_nchannels → bo.length = s.m_nchannels →
      s.Pipelined input bi p.gain_value T →
      (∀ n, n ∈ ns → n < 4294967296 ∧ n ≤ fuel) →
      ∃ s1, processConsecutive fuel r input bi bo ns T s = .ok s1 ∧ s.Frame s1 ∧
        s1.output = fun c i =>
          if c < s.m_nchannels ∧ bo.getD c 0 + T ≤ i ∧ i < bo.getD c 0 + T + ns.sum then
            delayedStream s.m_executor_config.max_samples_per_channel p.gain_value input bi c
              (i - bo.getD c 0)
          else s.output c i := by
  induction ns with
  | nil =>
    intro T s _ _ _ _ _ _ _ _ _ _
    refine ⟨s, rfl, Frame.refl s, ?_⟩
    funext c i
    simp only [List.sum_nil, Nat.add_zero]
    rw [if_neg (by intro h; omega)]
  | cons n rest ih =>
    intro T s hc ha hm hg hpr hcap hbi hbo hq hns
    obtain ⟨hn1, hn2⟩ := hns n (List.mem_cons_self n rest)
    obtain ⟨s1, p1, p2, p3, p4⟩ :=
      process_async_step fuel r input s bi bo T n p hc ha hm hg hpr hcap hn1 hn2 hbi hbo hq
    obtain ⟨f1, f2, f3, f4, f5, f6, f7, f8⟩ := p2
    obtain ⟨s2, q1, q2, q3⟩ := ih (T + n) s1 (f8 hc) (f3.trans ha) (f2.trans hm) (f7.trans hg)
      (f6.trans hpr) (by rw [f1]; exact hcap) (by rw [f4]; exact hbi) (by rw [f4]; exact hbo)
      p3 (fun m hm => hns m (List.mem_cons_of_mem n hm))
    refine ⟨s2, ?_, Frame.trans ⟨f1, f2, f3, f4, f5, f6, f7, f8⟩ q2, ?_⟩
    · rw [processConsecutive, p1]
      exact q1
    · rw [q3, p4, f4, f1]
      funext c i
      simp only [List.sum_cons]
      by_cases hcn : c < s.m_nchannels
      · simp only [hcn, true_and]
        split_ifs with h1 h2 h3 h4 h5 <;> first | rfl | omega
      · simp only [hcn, false_and, if_false]

theorem disarm_disarmed (s : GPUGainProcessor α) : s.disarm.m_armed = false := by
  unfold GPUGainProcessor.disarm
  cases ha : s.m_armed
  · simpa using ha
  · simp

/-- A `process` call that returns leaves the processor armed. -/
theorem process_ok_armed (fuel : Nat) (r : CreateProcessorResult) (input : Memory α)
    (a b : List Nat) (n : Int) (s s3 : GPUGainProcessor α)
    (h : s.process fuel r input a b n = .ok s3) : s3.m_armed = true := by
  rcases process_state fuel r input a b n s s3 (by rw [h]; rfl) with
    ⟨e, -, -, h1⟩ | ⟨s1, s2, h1, h2, h3⟩
  · rw [h] at h1
    simp at h1
  · obtain ⟨a1, -⟩ := armIfNeeded_state r s s1 h1
    obtain ⟨-, g2, -⟩ := growthStep_state fuel n s1 s2 (by rw [h2]; rfl)
    have f := Frame.trans (copyPointers_frame s2 a b n).1 (launchLoop_frame input fuel _ _ _ _ _ h3)
    exact f.2.2.1.trans (g2.trans a1)

/-- A property kept by every public operation that comes back is kept by every finite sequence
of public operations. -/
theorem run_invariant (fuel : Nat) (P : GPUGainProcessor α → Prop)
    (hstep : ∀ (op : Op α) (s s1 : GPUGainProcessor α), P s →
      (s.step fuel op).state? = some s1 → P s1) :
    ∀ (ops : List (Op α)) (s s1 : GPUGainProcessor α), P s →
      GPUGainProcessor.run fuel ops s = some s1 → P s1 := by
  intro ops
  induction ops with
  | nil =>
    intro s s1 hP h
    simp only [GPUGainProcessor.run, Option.some.injEq] at h
    exact h ▸ hP
  | cons op ops ih =>
    intro s s1 hP h
    rw [GPUGainProcessor.run] at h
    cases hs : (s.step fuel op).state? with
    | none => rw [hs] at h; simp at h
    | some s2 =>
      rw [hs] at h
      exact ih s2 s1 (hstep op s s2 hP hs) h

/-- With a capacity of zero the launch loop never ends on a non-empty request: every launch
carries zero samples and the remaining count stays as it is. -/
theorem launchLoop_zero_capacity (input : Memory α) (fuel : Nat) :
    ∀ (a b : List Nat) (remaining : Nat) (s : GPUGainProcessor α), s.Consistent →
      s.m_armed = true → s.m_executor_config.max_samples_per_channel = 0 → remaining ≠ 0 →
      GPUGainProcessor.launchLoop input fuel a b remaining s = .diverge := by
  induction fuel with
  | zero =>
    intro a b remaining s _ _ _ hr
    simp [GPUGainProcessor.launchLoop, hr]
  | succ fuel ih =>
    intro a b remaining s hc ha h0 hr
    obtain ⟨t1, hl, -⟩ := launch_ok input 0 a b s hc ha (Nat.zero_le _)
    obtain ⟨-, -, hfr⟩ := launch_frame input 0 a b s t1 hl
    rw [GPUGainProcessor.launchLoop]
    simp only [hr, if_false, h0, Nat.zero_min, hl, Nat.sub_zero, ne_eq, not_false_eq_true,
      if_true]
    have hfr2 := Frame.trans hfr (Frame.pointers t1 (t1.input_ptrs.map (· + 0))
      (t1.output_ptrs.map (· + 0)))
    exact ih _ _ remaining _ (hfr2.2.2.2.2.2.2.2 hc) (hfr2.2.2.1.trans ha)
      (by rw [hfr2.1]; exact h0) hr

/-- The part of `process` before the launch loop, on a consistent processor of capacity at
least one whose backend creates the processor when asked: the implicit `arm` and the growth step
return, and the launch loop starts from an armed, consistent state with the caller's pointers
copied whenever more than one launch is needed. -/
theorem process_prepare (fuel : Nat) (r : CreateProcessorResult) (n : Int) (a b : List Nat)
    (s : GPUGainProcessor α) (hc : s.Consistent)
    (hcap : 1 ≤ s.m_executor_config.max_samples_per_channel)
    (hr : s.m_armed = false → ∃ hd, r = .returned (some hd)) (hf : 12 ≤ fuel)
    (ha : a.length = s.m_nchannels) (hb : b.length = s.m_nchannels) :
    ∃ s1 s2, (if !s.m_armed then s.arm r else .ok s) = .ok s1 ∧
      s1.growthStep fuel n = .ok s2 ∧
      (s2.copyPointers a b n).Consistent ∧ (s2.copyPointers a b n).m_armed = true ∧
      (s2.copyPointers a b n).mode = s.mode ∧
      (s2.copyPointers a b n).m_nchannels = s.m_nchannels ∧
      1 ≤ (s2.copyPointers a b n).m_executor_config.max_samples_per_channel ∧
      (s2.copyPointers a b n).output = s.output ∧
      (s2.copyPointers a b n).m_processor = s1.m_processor ∧
      (s2.copyPointers a b n).calls = s2.calls ∧
      (s2.copyPointers a b n).m_executor_config = s2.m_executor_config ∧
      ((s2.copyPointers a b n).m_executor_config.max_samples_per_channel < toU32 n →
        (s2.copyPointers a b n).input_ptrs = a ∧ (s2.copyPointers a b n).output_ptrs = b) := by
  have h1 : ∃ s1, (if !s.m_armed then s.arm r else .ok s) = .ok s1 := by
    cases hs : s.m_armed
    · obtain ⟨hd, rfl⟩ := hr hs
      simp only [Bool.not_false, if_true]
      exact ⟨_, arm_created s hd hs⟩
    · exact ⟨s, by simp⟩
  obtain ⟨s1, h1⟩ := h1
  obtain ⟨a1, a2, a3, a4, -, a6, a7⟩ := armIfNeeded_state r s s1 h1
  obtain ⟨s2, h2⟩ := growthStep_ok fuel n s1 hf (by rw [a2]; exact hcap)
  obtain ⟨g1, g2, g3, -, g5, -, g7, -, -, g10, g11⟩ :=
    growthStep_state fuel n s1 s2 (by rw [h2]; rfl)
  obtain ⟨⟨c1, c2, c3, c4, -, c6, -, c8⟩, c9, c10, -⟩ := copyPointers_frame s2 a b n
  have hcap2 : 1 ≤ s2.m_executor_config.max_samples_per_channel := by
    rw [a2] at g10
    rcases g10 with g | ⟨g, j, hj, hjj⟩
    · omega
    · rw [hjj, Nat.le_min]
      refine ⟨?_, by decide⟩
      have : 1 * 1 ≤ s.m_executor_config.max_samples_per_channel * 2 ^ j :=
        Nat.mul_le_mul hcap (Nat.one_le_two_pow)
      omega
  refine ⟨s1, s2, h1, h2, c8 (g11 (a7 hc) a1), c3.trans (g2.trans a1), c2.trans (g1.trans a3),
    c4.trans (g3.trans a4), by rw [c1]; exact hcap2, c9.trans (g7.trans a6), c6.trans g5, c10,
    c1, ?_⟩
  intro hlt
  rw [c1] at hlt
  have hn2 : s2.m_nchannels = s.m_nchannels := g3.trans a4
  unfold GPUGainProcessor.copyPointers
  rw [if_pos hlt]
  simp only
  rw [hn2, List.take_of_length_le (by omega), List.take_of_length_le (by omega)]
  exact ⟨rfl, rfl⟩

/-- Every state reached from a created processor by a finite sequence of public operations
satisfies the lifecycle invariant. -/
theorem reachable_consistent [One α] (fuel : Nat) (mode : ExecutionMode)
    (nchannels capacity : Nat) (output : Memory α) (ops : List (Op α))
    (s : GPUGainProcessor α)
    (h : GPUGainProcessor.run fuel ops
      (GPUGainProcessor.create mode nchannels capacity output) = some s) : s.Consistent :=
  run_invariant fuel (fun t => t.Consistent)
    (fun op t t1 ht hs => (step_state fuel op t t1 hs).2.2.2 ht) ops _ s
    (create_consistent mode nchannels capacity output) h

/-- Termination of `process` for every capacity of at least one and every `int` sample count,
negative ones (converted to unsigned) included: with fuel for the growth loop and for one launch
per remaining sample the call returns. -/
theorem process_returns (fuel : Nat) (r : CreateProcessorResult) (input : Memory α)
    (a b : List Nat) (n : Int) (s : GPUGainProcessor α) (hc : s.Consistent)
    (hcap : 1 ≤ s.m_executor_config.max_samples_per_channel)
    (hr : s.m_armed = false → ∃ hd, r = .returned (some hd)) (hf : 12 ≤ fuel)
    (hf2 : toU32 n ≤ fuel) (ha : a.length = s.m_nchannels) (hb : b.length = s.m_nchannels) :
    ∃ s3, s.process fuel r input a b n = .ok s3 := by
  obtain ⟨s1, s2, h1, h2, t1, t2, -, -, t5, -, -, -, -, t10⟩ :=
    process_prepare fuel r n a b s hc hcap hr hf ha hb
  obtain ⟨s3, l1, -, -⟩ := launchLoop_calls input (s2.copyPointers a b n) a b
    (toU32 n) fuel t1 t2 t5 hf2 t10
  exact ⟨s3, by rw [process_of_ok fuel r input a b n s s1 s2 h1 h2]; exact l1⟩

theorem flatMap_range_congr {β : Type} (f g : Nat → List β) (k : Nat)
    (h : ∀ j, j < k → f j = g j) : (List.range k).flatMap f = (List.range k).flatMap g := by
  induction k with
  | zero => simp
  | succ k ih =>
    rw [List.range_succ, List.flatMap_append, List.flatMap_append,
      ih (fun j hj => h j (by omega))]
    simp [h k (by omega)]

/-- A request that fits the capacity is one launch of the whole request. -/
theorem expectedLaunches_single (mode : ExecutionMode) (cap n : Nat) (a b : List Nat)
    (h1 : 1 ≤ n) (h2 : n ≤ cap) :
    expectedLaunches mode cap n a b = launchCalls mode n a b := by
  unfold expectedLaunches
  rw [ceil_div_eq cap n 0 (by omega) (by omega), show List.range (0 + 1) = [0] from rfl]
  simp [Nat.min_eq_right h2]

/-- A request of `k * cap + r` samples, `0 < r < cap`, is `k` launches of `cap` samples and a
last one of `r` samples, launch `j` on the pointers advanced by `j * cap`. -/
theorem expectedLaunches_remainder (mode : ExecutionMode) (cap n k r : Nat) (a b : List Nat)
    (hn : n = k * cap + r) (h1 : 0 < r) (h2 : r < cap) :
    expectedLaunches mode cap n a b =
      ((List.range k).flatMap fun j =>
        launchCalls mode cap (a.map (· + j * cap)) (b.map (· + j * cap))) ++
      launchCalls mode r (a.map (· + k * cap)) (b.map (· + k * cap)) := by
  unfold expectedLaunches
  have hk1 : (k + 1) * cap = k * cap + cap := Nat.succ_mul k cap
  rw [ceil_div_eq cap n k (by omega) (by omega), List.range_succ, List.flatMap_append]
  congr 1
  · apply flatMap_range_congr
    intro j hj
    have hj1 : (j + 1) * cap ≤ k * cap := Nat.mul_le_mul_right cap hj
    have hj2 : (j + 1) * cap = j * cap + cap := Nat.succ_mul j cap
    rw [Nat.min_eq_left (by omega)]
  · have : min cap (n - k * cap) = r := by omega
    simp [this]

/-- A request of `k * cap` samples is `k` launches of `cap` samples, launch `j` on the pointers
advanced by `j * cap`. -/
theorem expectedLaunches_exact (mode : ExecutionMode) (cap n k : Nat) (a b : List Nat)
    (hn : n = k * cap) (h1 : 1 ≤ n) :
    expectedLaunches mode cap n a b =
      (List.range k).flatMap fun j =>
        launchCalls mode cap (a.map (· + j * cap)) (b.map (· + j * cap)) := by
  unfold expectedLaunches
  obtain ⟨k, rfl⟩ : ∃ i, k = i + 1 := by
    rcases Nat.eq_zero_or_pos k with h | h
    · subst h; omega
    · exact ⟨k - 1, by omega⟩
  have hk1 : (k + 1) * cap = k * cap + cap := Nat.succ_mul k cap
  have hcap : 1 ≤ cap := by
    rcases Nat.eq_zero_or_pos cap with h | h
    · subst h; omega
    · exact h
  rw [ceil_div_eq cap n k (by omega) (by omega)]
  apply flatMap_range_congr
  intro j hj
  have hj1 : (j + 1) * cap ≤ (k + 1) * cap := Nat.mul_le_mul_right cap hj
  have hj2 : (j + 1) * cap = j * cap + cap := Nat.succ_mul j cap
  rw [Nat.min_eq_left (by omega)]

/-- The launch sizes of the chunking rule add up to the request. -/
theorem launch_sizes_sum (cap n : Nat) (hcap : 1 ≤ cap) :
    ((List.range ((n + cap - 1) / cap)).map fun j => min cap (n - j * cap)).sum = n := by
  have key : ∀ m, ((List.range m).map fun j => min cap (n - j * cap)).sum = min (m * cap) n := by
    intro m
    induction m with
    | zero => simp
    | succ m ih =>
      have hm : (m + 1) * cap = m * cap + cap := Nat.succ_mul m cap
      rw [List.range_succ, List.map_append, List.sum_append, ih]
      simp only [List.map_cons, List.map_nil, List.sum_cons, List.sum_nil, Nat.add_zero]
      omega
  rw [key, Nat.min_eq_right (le_ceil_mul cap n hcap)]

end Launches

/-! ## Live backend resources -/

section Resources

variable {α : Type} [Mul α] [Zero α]

theorem track_append (xs ys : List BackendCall) : ∀ l : LiveResources,
    l.track (xs ++ ys) = (l.track xs).bind (fun l1 => l1.track ys) := by
  induction xs with
  | nil => intro l; rfl
  | cons c cs ih =>
    intro l
    simp only [List.cons_append, LiveResources.track]
    cases l.after c with
    | none => rfl
    | some l1 => exact ih l1

/-- One disciplined backend call changes the counts of constructed and destroyed resources as it
changes the live resources. -/
theorem after_counts (c : BackendCall) (l0 l1 : LiveResources) (h : l0.after c = some l1) :
    (if c.constructsExecutor then 1 else 0) + l0.executors =
      (if c.destroysExecutor then 1 else 0) + l1.executors ∧
    (if c.createsProcessor then 1 else 0) + l0.processors =
      (if c.deletesProcessor then 1 else 0) + l1.processors := by
  rcases c with r | hd | cfg | _ | _ | _ | _
  · rcases r with _ | p
    · simp only [LiveResources.after, Option.some.injEq] at h
      subst h
      simp [BackendCall.constructsExecutor, BackendCall.destroysExecutor,
        BackendCall.createsProcessor, BackendCall.deletesProcessor]
    · cases p with
      | none =>
        simp only [LiveResources.after, Option.some.injEq] at h
        subst h
        simp [BackendCall.constructsExecutor, BackendCall.destroysExecutor,
          BackendCall.createsProcessor, BackendCall.deletesProcessor]
      | some q =>
        simp only [LiveResources.after] at h
        split at h
        · simp only [Option.some.injEq] at h
          subst h
          simp [BackendCall.constructsExecutor, BackendCall.destroysExecutor,
            BackendCall.createsProcessor, BackendCall.deletesProcessor]
          omega
        · simp at h
  · simp only [LiveResources.after] at h
    split at h
    · simp only [Option.some.injEq] at h
      subst h
      simp [BackendCall.constructsExecutor, BackendCall.destroysExecutor,
        BackendCall.createsProcessor, BackendCall.deletesProcessor]
      omega
    · simp at h
  · simp only [LiveResources.after] at h
    split at h
    · simp only [Option.some.injEq] at h
      subst h
      simp [BackendCall.constructsExecutor, BackendCall.destroysExecutor,
        BackendCall.createsProcessor, BackendCall.deletesProcessor]
      omega
    · simp at h
  · simp only [LiveResources.after] at h
    split at h
    · simp at h
    · simp only [Option.some.injEq] at h
      subst h
      simp [BackendCall.constructsExecutor, BackendCall.destroysExecutor,
        BackendCall.createsProcessor, BackendCall.deletesProcessor]
      omega
  all_goals
    simp only [LiveResources.after, Option.some.injEq] at h
    subst h
    simp [BackendCall.constructsExecutor, BackendCall.destroysExecutor,
      BackendCall.createsProcessor, BackendCall.deletesProcessor]

/-- Along disciplined backend calls the live resources are the resources constructed and not
yet destroyed. -/
theorem track_counts (calls : List BackendCall) : ∀ l0 l : LiveResources,
    l0.track calls = some l →
    constructedExecutors calls + l0.executors = destroyedExecutors calls + l.executors ∧
    createdProcessors calls + l0.processors = deletedProcessors calls + l.processors := by
  induction calls with
  | nil =>
    intro l0 l h
    simp only [LiveResources.track, Option.some.injEq] at h
    subst h
    simp [constructedExecutors, destroyedExecutors, createdProcessors, deletedProcessors]
  | cons c cs ih =>
    intro l0 l h
    rw [LiveResources.track] at h
    cases hc : l0.after c with
    | none => rw [hc] at h; simp at h
    | some l1 =>
      rw [hc] at h
      obtain ⟨h1, h2⟩ := ih l1 l h
      obtain ⟨h3, h4⟩ := after_counts c l0 l1 hc
      simp only [constructedExecutors, destroyedExecutors, createdProcessors,
        deletedProcessors, List.countP_cons] at h1 h2 ⊢
      omega

/-- In disciplined backend calls every single call is made on live resources that allow it. -/
theorem track_prefix (pre post : List BackendCall) (c : BackendCall) (l0 l : LiveResources)
    (h : l0.track (pre ++ c :: post) = some l) :
    ∃ l1 l2, l0.track pre = some l1 ∧ l1.after c = some l2 := by
  rw [track_append] at h
  cases h1 : l0.track pre with
  | none => rw [h1] at h; simp at h
  | some l1 =>
    rw [h1] at h
    simp only [Option.bind, LiveResources.track] at h
    cases h2 : l1.after c with
    | none => rw [h2] at h; simp at h
    | some l2 => exact ⟨l1, l2, rfl, h2⟩

theorem track_launchCalls (l : LiveResources) (mode : ExecutionMode) (k : Nat)
    (a b : List Nat) : l.track (launchCalls mode k a b) = some l := by
  cases mode <;> rfl

/-- The backend calls of a launch that goes through. -/
theorem launch_calls (input : Memory α) (k : Nat) (a b : List Nat)
    (s s1 : GPUGainProcessor α) (h : s.launch input k a b = some s1) :
    s1.calls = s.calls ++ launchCalls s.mode k a b := by
  unfold GPUGainProcessor.launch at h
  cases he : s.m_process_executor with
  | none => simp [he] at h
  | some e =>
    simp only [he] at h
    split at h
    · simp at h
    · cases hm : s.mode
      · rw [hm] at h
        simp only [Option.some.injEq] at h
        subst h
        rfl
      · rw [hm] at h
        simp only [Option.some.injEq] at h
        subst h
        rfl

/-- Launches neither construct nor destroy a resource: whenever the launch loop comes back, the
live resources are those before the loop. -/
theorem launchLoop_track (input : Memory α) (fuel : Nat) :
    ∀ (a b : List Nat) (rem : Nat) (s s1 : GPUGainProcessor α),
      (GPUGainProcessor.launchLoop input fuel a b rem s).state? = some s1 →
      ∀ l0 : LiveResources, l0.track s1.calls = l0.track s.calls := by
  induction fuel with
  | zero =>
    intro a b rem s s1 h l0
    rw [GPUGainProcessor.launchLoop] at h
    split at h
    · simp only [Outcome.state?, Option.some.injEq] at h
      subst h
      rfl
    · simp [Outcome.state?] at h
  | succ fuel ih =>
    intro a b rem s s1 h l0
    rw [GPUGainProcessor.launchLoop] at h
    split at h
    · simp only [Outcome.state?, Option.some.injEq] at h
      subst h
      rfl
    · split at h
      · simp [Outcome.state?] at h
      · rename_i s2 hl
        have hcalls := launch_calls input _ _ _ s s2 hl
        have hstep : l0.track s2.calls = l0.track s.calls := by
          rw [hcalls, track_append]
          cases l0.track s.calls with
          | none => rfl
          | some l1 => exact track_launchCalls l1 _ _ _ _
        split at h
        · rw [ih _ _ _ _ _ h l0]
          exact hstep
        · rw [ih _ _ _ _ _ h l0]
          exact hstep

/-- The resource invariant is kept by `arm`, whether the backend creates the processor or not. -/
theorem arm_resources (s s1 : GPUGainProcessor α) (r : CreateProcessorResult)
    (h : (s.arm r).state? = some s1) (hm : s.ResourcesMatch) : s1.ResourcesMatch := by
  unfold GPUGainProcessor.ResourcesMatch at hm ⊢
  unfold GPUGainProcessor.arm at h
  cases ha : s.m_armed
  · rw [ha] at hm
    rcases r with _ | p
    · simp only [ha, Bool.not_false, if_true, Outcome.state?, Option.some.injEq] at h
      subst h
      simp only [track_append, hm, ha]
      rfl
    · cases p with
      | none =>
        simp only [ha, Bool.not_false, if_true, Outcome.state?, Option.some.injEq] at h
        subst h
        simp only [track_append, hm, ha]
        rfl
      | some hd =>
        simp only [ha, Bool.not_false, if_true, Outcome.state?, Option.some.injEq] at h
        subst h
        simp only [track_append, hm]
        rfl
  · simp only [ha, Bool.not_true, Bool.false_eq_true, if_false, Outcome.state?,
      Option.some.injEq] at h
    subst h
    exact hm

/-- The resource invariant is kept by `disarm`. -/
theorem disarm_resources (s : GPUGainProcessor α) (hc : s.Consistent)
    (hm : s.ResourcesMatch) : s.disarm.ResourcesMatch := by
  unfold GPUGainProcessor.ResourcesMatch at hm ⊢
  cases ha : s.m_armed
  · simp only [GPUGainProcessor.disarm, ha, Bool.false_eq_true, if_false]
    rw [ha] at hm
    exact hm
  · obtain ⟨p, e, hp, he, -, -⟩ := hc.2.1 ha
    rw [ha] at hm
    have hcalls : s.disarm.calls = s.calls ++ [.DeleteExecutor, .DeleteProcessor p.handle] := by
      simp [GPUGainProcessor.disarm, ha, GPUGainProcessor.deleteExecutor,
        GPUGainProcessor.deleteProcessor, he, hp]
    rw [hcalls, disarm_disarmed, track_append, hm]
    rfl

/-- The resource invariant is kept by the growth step of an armed processor: `renewExecutor`
destroys the executor and then builds one. -/
theorem growthStep_resources (fuel : Nat) (n : Int) (s s2 : GPUGainProcessor α)
    (h : (s.growthStep fuel n).state? = some s2) (hc : s.Consistent) (ha : s.m_armed = true)
    (hm : s.ResourcesMatch) : s2.ResourcesMatch := by
  rcases growthStep_cases fuel n s s2 h with ⟨-, rfl⟩ | ⟨-, j, -, -, -, -, rfl⟩
  · exact hm
  · obtain ⟨p, e, -, he, -, -⟩ := hc.2.1 ha
    unfold GPUGainProcessor.ResourcesMatch at hm ⊢
    rw [ha] at hm
    have hcalls := renewExecutor_calls (s.withCapacity
      (min (s.m_executor_config.max_samples_per_channel * 2 ^ j) MaxSampleCount)) e he
    have harmed := (renewExecutor_fields (s.withCapacity
      (min (s.m_executor_config.max_samples_per_channel * 2 ^ j) MaxSampleCount))).2.1
    rw [hcalls, harmed]
    have hcalls0 : (s.withCapacity
      (min (s.m_executor_config.max_samples_per_channel * 2 ^ j) MaxSampleCount)).calls =
        s.calls := rfl
    have harmed0 : (s.withCapacity
      (min (s.m_executor_config.max_samples_per_channel * 2 ^ j) MaxSampleCount)).m_armed =
        true := ha
    rw [hcalls0, harmed0, track_append, hm]
    rfl

/-- The resource invariant is kept by every public operation that comes back, by return or by
exception. -/
theorem step_resources (fuel : Nat) (op : Op α) (s s1 : GPUGainProcessor α)
    (h : (s.step fuel op).state? = some s1) (hc : s.Consistent) (hm : s.ResourcesMatch) :
    s1.ResourcesMatch := by
  cases op with
  | arm r => exact arm_resources s s1 r h hm
  | disarm =>
    simp only [GPUGainProcessor.step, Outcome.state?, Option.some.injEq] at h
    subst h
    exact disarm_resources s hc hm
  | set_gain g =>
    simp only [GPUGainProcessor.step, GPUGainProcessor.set_gain] at h
    cases ha : s.m_armed
    · simp only [ha, Bool.not_false, if_true, Outcome.state?, Option.some.injEq] at h
      subst h
      simpa [GPUGainProcessor.ResourcesMatch, ha] using hm
    · simp only [ha, Bool.not_true, Bool.false_eq_true, if_false, Outcome.state?,
        Option.some.injEq] at h
      subst h
      exact hm
  | enable_buffer_growth b =>
    simp only [GPUGainProcessor.step, Outcome.state?, Option.some.injEq] at h
    subst h
    exact hm
  | get_latency =>
    simp only [GPUGainProcessor.step, Outcome.state?, Option.some.injEq] at h
    subst h
    exact hm
  | process r input a b n =>
    simp only [GPUGainProcessor.step] at h
    rcases process_state fuel r input a b n s s1 h with ⟨e, -, h1, -⟩ | ⟨s2, s3, h1, h2, h3⟩
    · exact arm_resources s s1 r (by rw [h1]; rfl) hm
    · obtain ⟨a1, -, -, -, -, -, a7⟩ := armIfNeeded_state r s s2 h1
      have hm2 : s2.ResourcesMatch := by
        cases ha : s.m_armed
        · rw [ha] at h1
          simp only [Bool.not_false, if_true] at h1
          exact arm_resources s s2 r (by rw [h1]; rfl) hm
        · rw [ha] at h1
          simp only [Bool.not_true, Bool.false_eq_true, if_false, Outcome.ok.injEq] at h1
          subst h1
          exact hm
      have hm3 : s3.ResourcesMatch :=
        growthStep_resources fuel n s2 s3 (by rw [h2]; rfl) (a7 hc) a1 hm2
      obtain ⟨c1, -, c3, -⟩ := copyPointers_frame s3 a b n
      have hfr := Frame.trans c1 (launchLoop_frame input fuel _ _ _ _ _ h3)
      unfold GPUGainProcessor.ResourcesMatch at hm3 ⊢
      rw [launchLoop_track input fuel _ _ _ _ _ h3, c3, hfr.2.2.1]
      exact hm3

end Resources

/-! ## The claims -/

section Claims

variable {α : Type} [Mul α] [Zero α]

/-- C1. Sync-mode end-to-end correctness of `process`. Starting from a disarmed synchronous
processor in a consistent state (a freshly created one, or one that was armed and disarmed
before), whatever its channel count, its capacity of at least one and its growth setting: for
every gain `g` and every `int` sample count `0 ≤ nsamples`, `set_gain g` returns and the
`process` call that follows (it arms implicitly, the backend creating the processor) returns,
with `out[c][i] = g * in[c][i]` for every channel `c` below the channel count and every
`i < nsamples`, and with every other position of the output memory left as it was. The caller
hands one pointer per channel; the fuel covers the growth loop and the launches. -/
theorem sync_process_correct (s : GPUGainProcessor α) (g : α) (nsamples : Int)
    (input : Memory α) (in_buffer out_buffer : List Nat) (hd fuel : Nat)
    (hc : s.Consistent) (hm : s.mode = .eSync) (ha : s.m_armed = false)
    (hcap : 1 ≤ s.m_executor_config.max_samples_per_channel)
    (hn0 : 0 ≤ nsamples) (hn : nsamples < 2147483648)
    (hin : in_buffer.length = s.m_nchannels) (hout : out_buffer.length = s.m_nchannels)
    (hf : 12 ≤ fuel) (hf2 : nsamples.toNat ≤ fuel) :
    ∃ s1 s2 : GPUGainProcessor α,
      s.set_gain g = .ok s1 ∧
      s1.process fuel (.returned (some hd)) input in_buffer out_buffer nsamples = .ok s2 ∧
      (∀ c i, c < s.m_nchannels → i < nsamples.toNat →
        s2.output c (out_buffer.getD c 0 + i) = g * input c (in_buffer.getD c 0 + i)) ∧
      (∀ c i, ¬ (c < s.m_nchannels ∧ out_buffer.getD c 0 ≤ i ∧
        i < out_buffer.getD c 0 + nsamples.toNat) → s2.output c i = s.output c i) := by
  have hN : toU32 nsamples = nsamples.toNat := toU32_of_nonneg nsamples hn0 (by omega)
  have hs1 : s.set_gain g = .ok { s with gain_value := g } := by
    simp [GPUGainProcessor.set_gain, ha]
  generalize hS : ({ s with gain_value := g } : GPUGainProcessor α) = S at hs1
  have hSa : S.m_armed = false := by subst hS; exact ha
  have hSc : S.Consistent := by
    subst hS
    exact ⟨hc.1, hc.2.1, hc.2.2.1, hc.2.2.2⟩
  have hSn : S.m_nchannels = s.m_nchannels := by subst hS; rfl
  have hSm : S.mode = .eSync := by subst hS; exact hm
  have hSo : S.output = s.output := by subst hS; rfl
  have hSg : S.gain_value = g := by subst hS; rfl
  have hScap : S.m_executor_config.max_samples_per_channel =
      s.m_executor_config.max_samples_per_channel := by subst hS; rfl
  obtain ⟨s1, s2, h1, h2, t1, t2, t3, t4, t5, t6, t7, -, -, t10⟩ :=
    process_prepare fuel (.returned (some hd)) nsamples in_buffer out_buffer S hSc
      (by rw [hScap]; exact hcap) (fun _ => ⟨hd, rfl⟩) hf (by rw [hSn]; exact hin)
      (by rw [hSn]; exact hout)
  have hp : s1.m_processor = some ⟨hd, g⟩ := by
    rw [hSa] at h1
    simp only [Bool.not_false, if_true] at h1
    rw [arm_created S hd hSa] at h1
    simp only [Outcome.ok.injEq] at h1
    rw [← h1, hSg]
  obtain ⟨s3, l1, -, l3⟩ := launchLoop_sync input (s2.copyPointers in_buffer out_buffer nsamples)
    in_buffer out_buffer (toU32 nsamples) fuel ⟨hd, g⟩ t1 t2 (t3.trans hSm) (t7.trans hp) t5
    (by rw [hN]; exact hf2) (by rw [t4, hSn]; exact hin) (by rw [t4, hSn]; exact hout) t10
  rw [t4, hSn, t6, hSo, hN] at l3
  have hproc : S.process fuel (.returned (some hd)) input in_buffer out_buffer nsamples =
      .ok s3 := by
    rw [process_of_ok fuel _ input in_buffer out_buffer nsamples S s1 s2 h1 h2]
    exact l1
  refine ⟨S, s3, hs1, hproc, ?_, ?_⟩
  · intro c i hci hi
    rw [l3]
    simp only
    rw [if_pos ⟨hci, by omega, by omega⟩]
    congr 2
    omega
  · intro c i hci
    rw [l3]
    simp only
    rw [if_neg hci]

/-- C1, at a concrete call: a fresh two-channel processor of capacity 256 with growth enabled,
gain 3 and 1024 samples. -/
theorem sync_process_correct_witness :
    ∃ s1 s2 : GPUGainProcessor Int,
      ((createGpuProcessor 2 256 false (fun _ _ => 0)).enable_buffer_growth true).set_gain 3
        = .ok s1 ∧
      s1.process 1024 (.returned (some 0)) (fun c i => (c : Int) + (i : Int)) [0, 0] [0, 0] 1024
        = .ok s2 ∧
      (∀ c i, c < 2 → i < 1024 → s2.output c (([0, 0] : List Nat).getD c 0 + i) =
        3 * ((c : Int) + ((([0, 0] : List Nat).getD c 0 + i : Nat) : Int))) ∧
      (∀ c i, ¬ (c < 2 ∧ ([0, 0] : List Nat).getD c 0 ≤ i ∧
        i < ([0, 0] : List Nat).getD c 0 + 1024) → s2.output c i = 0) :=
  sync_process_correct
    ((createGpuProcessor 2 256 false (fun _ _ => (0 : Int))).enable_buffer_growth true) 3 1024
    (fun c i => (c : Int) + (i : Int)) [0, 0] [0, 0] 0 1024
    (by simp [GPUGainProcessor.Consistent, GPUGainProcessor.enable_buffer_growth,
      createGpuProcessor, GPUGainProcessor.create])
    rfl rfl (by decide) (by decide) (by decide) rfl rfl (by decide) (by decide)

/-- C2. Chunking correctness of the launch loop of `process`. On a consistent processor whose
capacity is at least one, for an `int` sample count `nsamples ≥ 1`, the call returns and, with
`cap ≥ 1` the capacity in force after the growth step (state `s2`), the backend calls made after
the growth step are exactly the launches of the chunking rule: one launch of `nsamples` samples
when `nsamples ≤ cap`; `k` launches of `cap` samples followed by one of `r` samples when
`nsamples = k * cap + r` with `0 < r < cap`; `k` launches of `cap` samples when
`nsamples = k * cap`. Launch `j` is handed every channel's input and output pointer advanced by
`j * cap`, launches are made in increasing `j`, and the launch sizes add up to `nsamples`. -/
theorem chunking_correct (fuel : Nat) (r : CreateProcessorResult) (input : Memory α)
    (a b : List Nat) (nsamples : Int) (s : GPUGainProcessor α) (hc : s.Consistent)
    (hcap : 1 ≤ s.m_executor_config.max_samples_per_channel)
    (hr : s.m_armed = false → ∃ hd, r = .returned (some hd))
    (hn1 : 1 ≤ nsamples) (hn : nsamples < 2147483648) (hf : 12 ≤ fuel)
    (hf2 : nsamples.toNat ≤ fuel) (ha : a.length = s.m_nchannels)
    (hb : b.length = s.m_nchannels) :
    ∃ s1 s2 s3, (if !s.m_armed then s.arm r else .ok s) = .ok s1 ∧
      s1.growthStep fuel nsamples = .ok s2 ∧
      s.process fuel r input a b nsamples = .ok s3 ∧
      1 ≤ s2.m_executor_config.max_samples_per_channel ∧
      s3.m_executor_config = s2.m_executor_config ∧
      s3.calls = s2.calls ++ expectedLaunches s.mode
        s2.m_executor_config.max_samples_per_channel nsamples.toNat a b ∧
      (nsamples.toNat ≤ s2.m_executor_config.max_samples_per_channel →
        s3.calls = s2.calls ++ launchCalls s.mode nsamples.toNat a b) ∧
      (∀ k r, nsamples.toNat = k * s2.m_executor_config.max_samples_per_channel + r →
        0 < r → r < s2.m_executor_config.max_samples_per_channel →
        s3.calls = s2.calls ++
          (((List.range k).flatMap fun j =>
            launchCalls s.mode s2.m_executor_config.max_samples_per_channel
              (a.map (· + j * s2.m_executor_config.max_samples_per_channel))
              (b.map (· + j * s2.m_executor_config.max_samples_per_channel))) ++
          launchCalls s.mode r
            (a.map (· + k * s2.m_executor_config.max_samples_per_channel))
            (b.map (· + k * s2.m_executor_config.max_samples_per_channel)))) ∧
      (∀ k, nsamples.toNat = k * s2.m_executor_config.max_samples_per_channel →
        s3.calls = s2.calls ++
          (List.range k).flatMap fun j =>
            launchCalls s.mode s2.m_executor_config.max_samples_per_channel
              (a.map (· + j * s2.m_executor_config.max_samples_per_channel))
              (b.map (· + j * s2.m_executor_config.max_samples_per_channel))) ∧
      ((List.range ((nsamples.toNat + s2.m_executor_config.max_samples_per_channel - 1) /
          s2.m_executor_config.max_samples_per_channel)).map fun j =>
        min s2.m_executor_config.max_samples_per_channel
          (nsamples.toNat - j * s2.m_executor_config.max_samples_per_channel)).sum =
        nsamples.toNat := by
  have hN : toU32 nsamples = nsamples.toNat := toU32_of_nonneg nsamples (by omega) (by omega)
  have hN1 : 1 ≤ nsamples.toNat := by omega
  obtain ⟨s1, s2, h1, h2, t1, t2, t3, -, t5, -, -, t8, t9, t10⟩ :=
    process_prepare fuel r nsamples a b s hc hcap hr hf ha hb
  obtain ⟨s3, l1, l2, l3⟩ := launchLoop_calls input (s2.copyPointers a b nsamples) a b
    (toU32 nsamples) fuel t1 t2 t5 (by rw [hN]; exact hf2) t10
  rw [t3, t8, t9, hN] at l3
  rw [t9] at t5
  have hproc : s.process fuel r input a b nsamples = .ok s3 := by
    rw [process_of_ok fuel r input a b nsamples s s1 s2 h1 h2]
    exact l1
  refine ⟨s1, s2, s3, h1, h2, hproc, t5, l2.1.trans t9, l3, ?_, ?_, ?_, ?_⟩
  · intro hle
    rw [l3, expectedLaunches_single _ _ _ _ _ hN1 hle]
  · intro k r hk hr1 hr2
    rw [l3, expectedLaunches_remainder _ _ _ k r _ _ hk hr1 hr2]
  · intro k hk
    rw [l3, expectedLaunches_exact _ _ _ k _ _ hk hN1]
  · exact launch_sizes_sum _ _ t5

/-- C2, at a concrete call: two channels, capacity 256 with growth disabled, 600 samples, that
is two launches of 256 samples and one of 88. -/
theorem chunking_correct_witness :
    ∃ s3 : GPUGainProcessor Int,
      ((GPUGainProcessor.create .eSync 2 256 (fun _ _ => 0)).enable_buffer_growth false).process
        600 (.returned (some 0)) (fun _ _ => 1) [0, 0] [0, 0] 600 = .ok s3 ∧
      s3.calls = [.CreateProcessor (.returned (some 0)), .NewExecutor ⟨2, 2, 256⟩,
        .Execute 256 [0, 0] [0, 0], .Execute 256 [256, 256] [256, 256],
        .Execute 88 [512, 512] [512, 512]] := by
  obtain ⟨s1, s2, s3, h1, h2, h3, -, -, -, -, h7, -⟩ :=
    chunking_correct 600 (.returned (some 0)) (fun _ _ => (1 : Int)) [0, 0] [0, 0] 600
      ((GPUGainProcessor.create .eSync 2 256 (fun _ _ => 0)).enable_buffer_growth false)
      (by simp [GPUGainProcessor.Consistent, GPUGainProcessor.enable_buffer_growth,
        GPUGainProcessor.create])
      (by decide) (fun _ => ⟨0, rfl⟩) (by decide) (by decide) (by decide) (by decide) rfl rfl
  have e1 : Outcome.ok _ = Outcome.ok s1 := h1
  cases e1
  have e2 : Outcome.ok _ = Outcome.ok s2 := h2
  cases e2
  exact ⟨s3, h3, h7 2 88 (by decide) (by decide) (by decide)⟩

/-- C3. Async-mode end-to-end correctness of `process`. Take a disarmed double-buffered
processor in a consistent state, with buffer growth disabled and capacity `L ≥ 1`, and set the
gain `g`. It reports the latency `L`; every finite sequence of `process` calls with sample
counts below `2^31` made on consecutive regions of the input and output streams returns, and
the concatenated output has `out[c][t] = g * in[c][t - L]` for every channel `c` and every
`L ≤ t` below the total number of samples, the pipeline fill (zeros) at the positions `t < L`,
and is otherwise untouched. The executor is the queue of `L` samples in flight per channel that
the source documents. -/
theorem async_process_correct (s : GPUGainProcessor α) (L : Nat) (g : α) (input : Memory α)
    (in_ptr out_ptr : List Nat) (ns : List Nat) (hd fuel : Nat)
    (hc : s.Consistent) (hm : s.mode = .eAsync) (ha : s.m_armed = false)
    (hg : s.m_buffer_growth_enabled = false)
    (hcap : s.m_executor_config.max_samples_per_channel = L) (hL : 1 ≤ L)
    (hin : in_ptr.length = s.m_nchannels) (hout : out_ptr.length = s.m_nchannels)
    (hns : ∀ n, n ∈ ns → n < 2147483648 ∧ n ≤ fuel) :
    ∃ s1 s2 : GPUGainProcessor α,
      s.set_gain g = .ok s1 ∧
      s1.get_latency = L ∧
      processConsecutive fuel (.returned (some hd)) input in_ptr out_ptr ns 0 s1 = .ok s2 ∧
      s2.get_latency = L ∧
      (∀ c t, c < s.m_nchannels → L ≤ t → t < ns.sum →
        s2.output c (out_ptr.getD c 0 + t) = g * input c (in_ptr.getD c 0 + (t - L))) ∧
      (∀ c t, c < s.m_nchannels → t < L → t < ns.sum →
        s2.output c (out_ptr.getD c 0 + t) = 0) ∧
      (∀ c i, ¬ (c < s.m_nchannels ∧ out_ptr.getD c 0 ≤ i ∧
        i < out_ptr.getD c 0 + ns.sum) → s2.output c i = s.output c i) := by
  have hs1 : s.set_gain g = .ok { s with gain_value := g } := by
    simp [GPUGainProcessor.set_gain, ha]
  generalize hS : ({ s with gain_value := g } : GPUGainProcessor α) = S at hs1
  have hSa : S.m_armed = false := by subst hS; exact ha
  have hSc : S.Consistent := by
    subst hS
    exact ⟨hc.1, hc.2.1, hc.2.2.1, hc.2.2.2⟩
  have hSn : S.m_nchannels = s.m_nchannels := by subst hS; rfl
  have hSm : S.mode = .eAsync := by subst hS; exact hm
  have hSo : S.output = s.output := by subst hS; rfl
  have hSg : S.gain_value = g := by subst hS; rfl
  have hSgr : S.m_buffer_growth_enabled = false := by subst hS; exact hg
  have hScap : S.m_executor_config.max_samples_per_channel = L := by subst hS; exact hcap
  have hlat : S.get_latency = L := by
    unfold GPUGainProcessor.get_latency
    rw [hSm]
    exact hScap
  cases ns with
  | nil =>
    refine ⟨S, S, hs1, hlat, rfl, hlat, ?_, ?_, ?_⟩
    · intro c t _ _ ht
      simp at ht
    · intro c t _ _ ht
      simp at ht
    · intro c i _
      rw [hSo]
  | cons n rest =>
    have harm := arm_created S hd hSa
    have hq0 := pipelined_after_arm input in_ptr S hd hSm
    generalize hS1 : ({ S with
        m_processor := some ⟨hd, S.gain_value⟩
        m_process_executor :=
          some (ProcessExecutor.new S.mode (some ⟨hd, S.gain_value⟩) S.m_executor_config)
        m_armed := true
        calls := S.calls ++ [.CreateProcessor (.returned (some hd)),
          .NewExecutor S.m_executor_config] } : GPUGainProcessor α) = S1 at harm hq0
    have hq : S1.Pipelined input in_ptr g 0 := by
      rw [← hSg]
      exact hq0
    obtain ⟨a1, a2, a3, -, a5, a6, a7⟩ := arm_state S S1 _ (by rw [harm]; rfl)
    have hp1 : S1.m_processor = some ⟨hd, g⟩ := by rw [← hS1, ← hSg]
    obtain ⟨s2, q1, q2, q3⟩ := processConsecutive_async fuel (.returned (some hd)) input
      in_ptr out_ptr ⟨hd, g⟩ (n :: rest) 0 S1 (a7 hSc) (arm_ok_armed S S1 _ harm)
      (a2.trans hSm) (a5.trans hSgr) hp1 (by rw [a1, hScap]; exact hL)
      (by rw [a3, hSn]; exact hin) (by rw [a3, hSn]; exact hout) hq
      (fun m hm => ⟨by have := (hns m hm).1; omega, (hns m hm).2⟩)
    have hrun : processConsecutive fuel (.returned (some hd)) input in_ptr out_ptr
        (n :: rest) 0 S = .ok s2 := by
      rw [processConsecutive, process_after_arm fuel _ input _ _ _ S S1 hSa harm]
      rw [processConsecutive] at q1
      exact q1
    rw [a3, hSn, a1, hScap, a6, hSo] at q3
    have hlat2 : s2.get_latency = L := by
      unfold GPUGainProcessor.get_latency
      rw [q2.2.1, a2, hSm, q2.1, a1]
      exact hScap
    refine ⟨S, s2, hs1, hlat, hrun, hlat2, ?_, ?_, ?_⟩
    · intro c t hct h1 h2
      rw [q3]
      simp only [delayedStream]
      rw [if_pos ⟨hct, by omega, by omega⟩, if_neg (by omega)]
      congr 3
      omega
    · intro c t hct h1 h2
      rw [q3]
      simp only [delayedStream]
      rw [if_pos ⟨hct, by omega, by omega⟩, if_pos (by omega)]
    · intro c i hci
      rw [q3]
      simp only
      rw [if_neg (by simpa using hci)]

/-- C3, at the calling pattern of the double-buffered test: a fresh two-channel processor of
capacity 256, gain 3 and calls of 100, 256 and 700 samples. -/
theorem async_process_correct_witness :
    ∃ s1 s2 : GPUGainProcessor Int,
      ((createGpuProcessor 2 256 true (fun _ _ => -1)).enable_buffer_growth false).set_gain 3
        = .ok s1 ∧
      s1.get_latency = 256 ∧
      processConsecutive 700 (.returned (some 0)) (fun c i => (c : Int) + (i : Int)) [0, 0]
        [0, 0] [100, 256, 700] 0 s1 = .ok s2 ∧
      s2.output 1 (0 + 1000) = 3 * ((1 : Int) + ((0 + (1000 - 256) : Nat) : Int)) ∧
      s2.output 1 (0 + 255) = 0 := by
  obtain ⟨s1, s2, h1, h2, h3, -, h5, h6, -⟩ :=
    async_process_correct
      ((createGpuProcessor 2 256 true (fun _ _ => (-1 : Int))).enable_buffer_growth false)
      256 (3 : Int) (fun c i => (c : Int) + (i : Int)) [0, 0] [0, 0] [100, 256, 700] 0 700
      (by simp [GPUGainProcessor.Consistent, GPUGainProcessor.enable_buffer_growth,
        createGpuProcessor, GPUGainProcessor.create])
      rfl rfl rfl rfl (by decide) rfl rfl (by
        intro n hn
        simp only [List.mem_cons, List.mem_singleton, List.not_mem_nil, or_false] at hn
        rcases hn with rfl | rfl | rfl <;> decide)
  exact ⟨s1, s2, h1, h2, h3, h5 1 1000 (by decide) (by decide) (by decide),
    h6 1 255 (by decide) (by decide) (by decide)⟩

/-- C4. Result of the growth step at the start of `process`. On a consistent processor of
capacity `c ≥ 1`, for an `int` sample count `0 ≤ nsamples`, the call returns; with `s1` the
state after the implicit `arm` and `s2` the state after the growth step: if growth is enabled,
`nsamples > c` and `c < 4096`, the capacity becomes `min (c * 2 ^ j) 4096` for the least
`j ≥ 1` with `c * 2 ^ j ≥ nsamples` or `c * 2 ^ j ≥ 4096`, no doubling overflows 32 bits, and
the executor is renewed exactly once (one `DeleteExecutor`, one `NewExecutor` at the new
capacity); in every other case the growth step changes nothing. The launches that follow keep
the configuration and build no executor. -/
theorem growth_step_result (fuel : Nat) (r : CreateProcessorResult) (input : Memory α)
    (a b : List Nat) (nsamples : Int) (s : GPUGainProcessor α) (hc : s.Consistent)
    (hcap : 1 ≤ s.m_executor_config.max_samples_per_channel)
    (hr : s.m_armed = false → ∃ hd, r = .returned (some hd))
    (hn0 : 0 ≤ nsamples) (hn : nsamples < 2147483648) (hf : 12 ≤ fuel)
    (hf2 : nsamples.toNat ≤ fuel) (ha : a.length = s.m_nchannels)
    (hb : b.length = s.m_nchannels) :
    ∃ s1 s2 s3, (if !s.m_armed then s.arm r else .ok s) = .ok s1 ∧
      s1.m_executor_config = s.m_executor_config ∧
      s1.growthStep fuel nsamples = .ok s2 ∧
      s.process fuel r input a b nsamples = .ok s3 ∧
      s3.m_executor_config = s2.m_executor_config ∧
      s3.calls = s2.calls ++ expectedLaunches s.mode
        s2.m_executor_config.max_samples_per_channel nsamples.toNat a b ∧
      ((s.m_buffer_growth_enabled = true ∧
          s.m_executor_config.max_samples_per_channel < nsamples.toNat ∧
          s.m_executor_config.max_samples_per_channel < MaxSampleCount) →
        ∃ j, 1 ≤ j ∧
          (nsamples.toNat ≤ s.m_executor_config.max_samples_per_channel * 2 ^ j ∨
            MaxSampleCount ≤ s.m_executor_config.max_samples_per_channel * 2 ^ j) ∧
          (∀ i, 1 ≤ i → i < j →
            s.m_executor_config.max_samples_per_channel * 2 ^ i < nsamples.toNat ∧
            s.m_executor_config.max_samples_per_channel * 2 ^ i < MaxSampleCount) ∧
          (∀ i, i < j → s.m_executor_config.max_samples_per_channel * 2 ^ i * 2 < 4294967296) ∧
          s2.m_executor_config.max_samples_per_channel =
            min (s.m_executor_config.max_samples_per_channel * 2 ^ j) MaxSampleCount ∧
          s2.m_executor_config.nchannels_in = s.m_executor_config.nchannels_in ∧
          s2.m_executor_config.nchannels_out = s.m_executor_config.nchannels_out ∧
          s2.calls = s1.calls ++ [.DeleteExecutor, .NewExecutor s2.m_executor_config]) ∧
      (¬ (s.m_buffer_growth_enabled = true ∧
          s.m_executor_config.max_samples_per_channel < nsamples.toNat ∧
          s.m_executor_config.max_samples_per_channel < MaxSampleCount) → s2 = s1) := by
  have hN : toU32 nsamples = nsamples.toNat := toU32_of_nonneg nsamples hn0 (by omega)
  obtain ⟨s1, s2, h1, h2, t1, t2, t3, -, t5, -, -, t8, t9, t10⟩ :=
    process_prepare fuel r nsamples a b s hc hcap hr hf ha hb
  obtain ⟨s3, l1, l2, l3⟩ := launchLoop_calls input (s2.copyPointers a b nsamples) a b
    (toU32 nsamples) fuel t1 t2 t5 (by rw [hN]; exact hf2) t10
  rw [t3, t8, t9, hN] at l3
  have hproc : s.process fuel r input a b nsamples = .ok s3 := by
    rw [process_of_ok fuel r input a b nsamples s s1 s2 h1 h2]
    exact l1
  obtain ⟨a1, a2, -, -, a5, -, a7⟩ := armIfNeeded_state r s s1 h1
  refine ⟨s1, s2, s3, h1, a2, h2, hproc, l2.1.trans t9, l3, ?_, ?_⟩
  · intro hg
    rcases growthStep_cases fuel nsamples s1 s2 (by rw [h2]; rfl) with
      ⟨hng, -⟩ | ⟨-, j, hj1, hj2, hj3, hj4, hj5⟩
    · rw [a5, a2, hN] at hng
      exact absurd hg hng
    · rw [a2, hN] at hj2 hj3
      rw [a2] at hj4 hj5
      obtain ⟨p, e, -, he, -, -⟩ := (a7 hc).2.1 a1
      refine ⟨j, hj1, hj2, hj3, hj4, ?_, ?_, ?_, ?_⟩
      · rw [hj5, (renewExecutor_fields _).2.2.2.2.2.2.1]
        simp only [GPUGainProcessor.withCapacity, a2]
      · rw [hj5, (renewExecutor_fields _).2.2.2.2.2.2.1]
        simp only [GPUGainProcessor.withCapacity, a2]
      · rw [hj5, (renewExecutor_fields _).2.2.2.2.2.2.1]
        simp only [GPUGainProcessor.withCapacity, a2]
      · have hcalls := renewExecutor_calls (s1.withCapacity
          (min (s.m_executor_config.max_samples_per_channel * 2 ^ j) MaxSampleCount)) e he
        rw [hj5, hcalls, (renewExecutor_fields _).2.2.2.2.2.2.1]
        rfl
  · intro hg
    rcases growthStep_cases fuel nsamples s1 s2 (by rw [h2]; rfl) with
      ⟨-, h⟩ | ⟨hg1, -⟩
    · exact h
    · rw [a5, a2, hN] at hg1
      exact absurd hg1 hg

/-- C4, at the three requests named in the claim, on a two-channel processor of capacity 256
with growth enabled: 1024 samples give the capacity 1024, 513 samples give 1024, and 5000
samples give 4096. -/
theorem growth_step_result_witness :
    (∃ s3 : GPUGainProcessor Int,
      (GPUGainProcessor.create .eSync 2 256 (fun _ _ => 0)).process 1024 (.returned (some 0))
        (fun _ _ => 1) [0, 0] [0, 0] 1024 = .ok s3 ∧
      s3.m_executor_config.max_samples_per_channel = 1024) ∧
    (∃ s3 : GPUGainProcessor Int,
      (GPUGainProcessor.create .eSync 2 256 (fun _ _ => 0)).process 513 (.returned (some 0))
        (fun _ _ => 1) [0, 0] [0, 0] 513 = .ok s3 ∧
      s3.m_executor_config.max_samples_per_channel = 1024) ∧
    (∃ s3 : GPUGainProcessor Int,
      (GPUGainProcessor.create .eSync 2 256 (fun _ _ => 0)).process 5000 (.returned (some 0))
        (fun _ _ => 1) [0, 0] [0, 0] 5000 = .ok s3 ∧
      s3.m_executor_config.max_samples_per_channel = 4096) := by
  have hc : (GPUGainProcessor.create .eSync 2 256 (fun _ _ => (0 : Int))).Consistent := by
    simp [GPUGainProcessor.Consistent, GPUGainProcessor.create]
  refine ⟨?_, ?_, ?_⟩
  · obtain ⟨s1, s2, s3, h1, -, h2, h3, h4, -⟩ :=
      growth_step_result 1024 (.returned (some 0)) (fun _ _ => (1 : Int)) [0, 0] [0, 0] 1024
        (GPUGainProcessor.create .eSync 2 256 (fun _ _ => 0)) hc (by decide)
        (fun _ => ⟨0, rfl⟩) (by decide) (by decide) (by decide) (by decide) rfl rfl
    have e1 : Outcome.ok _ = Outcome.ok s1 := h1
    cases e1
    have e2 : Outcome.ok _ = Outcome.ok s2 := h2
    cases e2
    exact ⟨s3, h3, by rw [h4]; rfl⟩
  · obtain ⟨s1, s2, s3, h1, -, h2, h3, h4, -⟩ :=
      growth_step_result 513 (.returned (some 0)) (fun _ _ => (1 : Int)) [0, 0] [0, 0] 513
        (GPUGainProcessor.create .eSync 2 256 (fun _ _ => 0)) hc (by decide)
        (fun _ => ⟨0, rfl⟩) (by decide) (by decide) (by decide) (by decide) rfl rfl
    have e1 : Outcome.ok _ = Outcome.ok s1 := h1
    cases e1
    have e2 : Outcome.ok _ = Outcome.ok s2 := h2
    cases e2
    exact ⟨s3, h3, by rw [h4]; rfl⟩
  · obtain ⟨s1, s2, s3, h1, -, h2, h3, h4, -⟩ :=
      growth_step_result 5000 (.returned (some 0)) (fun _ _ => (1 : Int)) [0, 0] [0, 0] 5000
        (GPUGainProcessor.create .eSync 2 256 (fun _ _ => 0)) hc (by decide)
        (fun _ => ⟨0, rfl⟩) (by decide) (by decide) (by decide) (by decide) rfl rfl
    have e1 : Outcome.ok _ = Outcome.ok s1 := h1
    cases e1
    have e2 : Outcome.ok _ = Outcome.ok s2 := h2
    cases e2
    exact ⟨s3, h3, by rw [h4]; rfl⟩

/-- C5. `set_gain g` fails if and only if the processor is armed. While disarmed it returns
and only the pending gain changes, to `g`; while armed, whether by `arm` or implicitly by
`process`, it throws the invalid-state error and leaves the whole state (pending gain, backend
processor and the gain baked into it, armed flag, capacity) as it was. After `disarm` a
`set_gain g` succeeds again, and the next `arm` creates the backend processor with gain `g`. -/
theorem set_gain_fails_iff_armed (s : GPUGainProcessor α) (g : α) :
    (s.m_armed = false → s.set_gain g = .ok { s with gain_value := g }) ∧
    (s.m_armed = true → s.set_gain g = .throw .setGainWhileArmed s) ∧
    ((∃ e s1, s.set_gain g = .throw e s1) ↔ s.m_armed = true) ∧
    (∀ r s1, s.arm r = .ok s1 → s1.set_gain g = .throw .setGainWhileArmed s1) ∧
    (∀ fuel r input a b n s1, s.process fuel r input a b n = .ok s1 →
      s1.set_gain g = .throw .setGainWhileArmed s1) ∧
    s.disarm.set_gain g = .ok { s.disarm with gain_value := g } ∧
    (∀ hd, ∃ s3 e, ({ s.disarm with gain_value := g } : GPUGainProcessor α).arm
        (.returned (some hd)) = .ok s3 ∧ s3.m_armed = true ∧
      s3.m_processor = some ⟨hd, g⟩ ∧ s3.m_process_executor = some e ∧
      e.processor = some ⟨hd, g⟩ ∧
      s3.calls = s.disarm.calls ++
        [.CreateProcessor (.returned (some hd)), .NewExecutor s.m_executor_config]) := by
  have hthrow : ∀ t : GPUGainProcessor α, t.m_armed = true →
      t.set_gain g = .throw .setGainWhileArmed t := by
    intro t ht
    simp [GPUGainProcessor.set_gain, ht]
  have hok : ∀ t : GPUGainProcessor α, t.m_armed = false →
      t.set_gain g = .ok { t with gain_value := g } := by
    intro t ht
    simp [GPUGainProcessor.set_gain, ht]
  refine ⟨hok s, hthrow s, ⟨?_, fun h => ⟨_, _, hthrow s h⟩⟩, ?_, ?_,
    hok _ (disarm_disarmed s), ?_⟩
  · rintro ⟨e, s1, h⟩
    cases ha : s.m_armed
    · rw [hok s ha] at h
      simp at h
    · rfl
  · intro r s1 h
    exact hthrow s1 (arm_ok_armed s s1 r h)
  · intro fuel r input a b n s1 h
    exact hthrow s1 (process_ok_armed fuel r input a b n s s1 h)
  · intro hd
    have hcfg : s.disarm.m_executor_config = s.m_executor_config := by
      unfold GPUGainProcessor.disarm GPUGainProcessor.deleteProcessor
        GPUGainProcessor.deleteExecutor
      cases s.m_armed <;> cases s.m_process_executor <;> cases hp : s.m_processor <;> simp [hp]
    refine ⟨_, _, arm_created _ hd (disarm_disarmed s), rfl, rfl, rfl, rfl, ?_⟩
    simp only [hcfg]

/-- C6. Reported latency. `get_latency` is `0` on a synchronous processor and the current
capacity on a double-buffered one, in every state and so in every state reached from a created
processor by any sequence of public operations, armed or not, before and after growth. A
double-buffered processor created with capacity 256 and growth enabled reports 256 before, and
1024 after, a `process` call of 1024 samples. -/
theorem get_latency_reported [One α] :
    (∀ s : GPUGainProcessor α, s.mode = .eSync → s.get_latency = 0) ∧
    (∀ s : GPUGainProcessor α, s.mode = .eAsync →
      s.get_latency = s.m_executor_config.max_samples_per_channel) ∧
    (∀ nchannels capacity (output : Memory α) fuel ops (s : GPUGainProcessor α),
      GPUGainProcessor.run fuel ops (createGpuProcessor nchannels capacity false output) = some s →
      s.get_latency = 0) ∧
    (∀ nchannels capacity (output : Memory α) fuel ops (s : GPUGainProcessor α),
      GPUGainProcessor.run fuel ops (createGpuProcessor nchannels capacity true output) = some s →
      s.get_latency = s.m_executor_config.max_samples_per_channel) ∧
    (∀ (input output : Memory α),
      (createGpuProcessor 2 256 true output).get_latency = 256 ∧
      ∃ s1, (createGpuProcessor 2 256 true output).process 1024 (.returned (some 0)) input
          [0, 0] [0, 0] 1024 = .ok s1 ∧ s1.get_latency = 1024) := by
  have hsync : ∀ s : GPUGainProcessor α, s.mode = .eSync → s.get_latency = 0 := by
    intro s h
    simp [GPUGainProcessor.get_latency, h]
  have hasync : ∀ s : GPUGainProcessor α, s.mode = .eAsync →
      s.get_latency = s.m_executor_config.max_samples_per_channel := by
    intro s h
    simp [GPUGainProcessor.get_latency, h]
  refine ⟨hsync, hasync, ?_, ?_, ?_⟩
  · intro nchannels capacity output fuel ops s h
    exact hsync s (run_invariant fuel (fun t => t.mode = .eSync)
      (fun op t t1 ht hs => (step_state fuel op t t1 hs).1.trans ht) ops _ s rfl h)
  · intro nchannels capacity output fuel ops s h
    exact hasync s (run_invariant fuel (fun t => t.mode = .eAsync)
      (fun op t t1 ht hs => (step_state fuel op t t1 hs).1.trans ht) ops _ s rfl h)
  · intro input output
    refine ⟨rfl, ?_⟩
    obtain ⟨s1, s2, h1, h2, t1, t2, t3, -, t5, -, -, -, t9, t10⟩ :=
      process_prepare 1024 (.returned (some 0)) 1024 [0, 0] [0, 0]
        (createGpuProcessor 2 256 true output)
        (by simp [GPUGainProcessor.Consistent, createGpuProcessor, GPUGainProcessor.create])
        (show 1 ≤ 256 by decide) (fun _ => ⟨0, rfl⟩) (by decide) rfl rfl
    obtain ⟨s3, l1, l2, -⟩ := launchLoop_calls input (s2.copyPointers [0, 0] [0, 0] 1024)
      [0, 0] [0, 0] (toU32 1024) 1024 t1 t2 t5
      (Nat.le_of_eq (toU32_ofNat 1024 (by decide))) t10
    refine ⟨s3, ?_, ?_⟩
    · rw [process_of_ok 1024 _ input [0, 0] [0, 0] 1024 _ s1 s2 h1 h2]
      exact l1
    · rw [hasync s3 (l2.2.1.trans t3), l2.1, t9]
      obtain ⟨-, a2, -, -, a5, -⟩ := armIfNeeded_state _ _ s1 h1
      have hcap1 : s1.m_executor_config.max_samples_per_channel = 256 := by rw [a2]; rfl
      have hN : toU32 1024 = 1024 := toU32_ofNat 1024 (by decide)
      rcases growthStep_cases 1024 1024 s1 s2 (by rw [h2]; rfl) with
        ⟨hng, -⟩ | ⟨-, j, hj1, hj2, hj3, -, hj5⟩
      · rw [a5, hcap1, hN] at hng
        exact absurd ⟨rfl, by decide, by decide⟩ hng
      · rw [hcap1, hN] at hj2 hj3
        have hj : j = 2 := by
          rcases Nat.lt_or_ge j 3 with h | h
          · interval_cases j
            · simp [MaxSampleCount] at hj2
            · rfl
          · have := (hj3 2 (by omega) (by omega)).1
            simp at this
        subst hj
        rw [hj5, (renewExecutor_fields _).2.2.2.2.2.2.1]
        simp [GPUGainProcessor.withCapacity, hcap1, MaxSampleCount]

/-- C7. Idempotence of `arm` and `disarm`. In every state, `arm` followed by `arm` ends as a
single `arm` does, in the whole state and so in the backend calls made (the second call makes
none); when the first call creates the processor, the two calls together create exactly one
backend processor and one executor. `disarm` followed by `disarm` leaves the state of a single
`disarm`; on an armed processor the two calls together delete the executor and then the backend
processor exactly once. `arm` on an armed processor and `disarm` on a disarmed one change
nothing. -/
theorem arm_disarm_idempotent (s : GPUGainProcessor α) (r1 r2 : CreateProcessorResult) :
    (s.arm r1).andThen (fun s1 => s1.arm r2) = s.arm r1 ∧
    s.disarm.disarm = s.disarm ∧
    (s.m_armed = true → s.arm r1 = .ok s) ∧
    (s.m_armed = false → s.disarm = s) ∧
    (s.m_armed = false → ∀ hd, ∃ s1, s.arm (.returned (some hd)) = .ok s1 ∧
      s1.arm r2 = .ok s1 ∧
      s1.calls = s.calls ++
        [.CreateProcessor (.returned (some hd)), .NewExecutor s.m_executor_config]) ∧
    (s.Consistent → s.m_armed = true → ∃ p, s.m_processor = some p ∧
      s.disarm.calls = s.calls ++ [.DeleteExecutor, .DeleteProcessor p.handle] ∧
      s.disarm.disarm.calls = s.calls ++ [.DeleteExecutor, .DeleteProcessor p.handle]) := by
  have hdd : s.disarm.disarm = s.disarm := by
    have h := disarm_disarmed s
    generalize s.disarm = t at h
    simp [GPUGainProcessor.disarm, h]
  refine ⟨?_, hdd, arm_of_armed s r1, ?_, ?_, ?_⟩
  · cases h : s.arm r1 with
    | ok s1 =>
      simp only [Outcome.andThen]
      exact arm_of_armed s1 r2 (arm_ok_armed s s1 r1 h)
    | throw e s1 => rfl
    | diverge => rfl
    | fault => rfl
  · intro ha
    simp [GPUGainProcessor.disarm, ha]
  · intro ha hd
    exact ⟨_, arm_created s hd ha, arm_of_armed _ r2 rfl, rfl⟩
  · intro hc ha
    obtain ⟨p, e, hp, he, -, -⟩ := hc.2.1 ha
    have hcalls : s.disarm.calls = s.calls ++ [.DeleteExecutor, .DeleteProcessor p.handle] := by
      simp [GPUGainProcessor.disarm, ha, GPUGainProcessor.deleteExecutor,
        GPUGainProcessor.deleteProcessor, he, hp]
    exact ⟨p, hp, hcalls, by rw [hdd]; exact hcalls⟩

/-- C9. Atomicity of a failed `arm`. On a disarmed processor in a consistent state, when the
backend answers the creation request with a non-success code or with a null processor, `arm`
throws, and the only change is the record of the attempted backend call: the processor is still
disarmed, holds no backend processor and no executor, has its pending gain, capacity and growth
flag unchanged, and no executor was built. The same outcome, with the same state, is that of a
`process` call whose implicit `arm` fails: no growth, no launch. A later `arm` asks the backend
again and arms the processor when the creation succeeds. -/
theorem failed_arm_atomic (s : GPUGainProcessor α) (r : CreateProcessorResult)
    (hc : s.Consistent) (ha : s.m_armed = false) (hr : r = .failed ∨ r = .returned none) :
    s.arm r = .throw .createProcessorFailed { s with calls := s.calls ++ [.CreateProcessor r] } ∧
    (∀ fuel input a b n, s.process fuel r input a b n =
      .throw .createProcessorFailed { s with calls := s.calls ++ [.CreateProcessor r] }) ∧
    (∀ t, s.arm r = .throw .createProcessorFailed t →
      t.m_armed = false ∧ t.m_processor = none ∧ t.m_process_executor = none ∧
      t.gain_value = s.gain_value ∧ t.m_executor_config = s.m_executor_config ∧
      t.m_buffer_growth_enabled = s.m_buffer_growth_enabled ∧ t.output = s.output ∧
      t.calls = s.calls ++ [.CreateProcessor r] ∧ t.Consistent ∧
      ∀ hd, ∃ t1, t.arm (.returned (some hd)) = .ok t1 ∧ t1.m_armed = true ∧
        t1.calls = s.calls ++ [.CreateProcessor r, .CreateProcessor (.returned (some hd)),
          .NewExecutor s.m_executor_config]) := by
  obtain ⟨hp, he⟩ := hc.1 ha
  have harm : s.arm r =
      .throw .createProcessorFailed { s with calls := s.calls ++ [.CreateProcessor r] } := by
    rcases hr with rfl | rfl
    · simp [GPUGainProcessor.arm, ha]
    · simp only [GPUGainProcessor.arm, ha, Bool.not_false, if_true]
      rw [← hp]
  refine ⟨harm, ?_, ?_⟩
  · intro fuel input a b n
    simp [GPUGainProcessor.process, ha, harm, Outcome.andThen]
  · intro t ht
    rw [harm] at ht
    simp only [Outcome.throw.injEq, true_and] at ht
    subst ht
    refine ⟨ha, hp, he, rfl, rfl, rfl, rfl, rfl, ?_, ?_⟩
    · exact ⟨fun _ => ⟨hp, he⟩, fun hb => by simp [ha] at hb, hc.2.2.1, hc.2.2.2⟩
    · intro hd
      refine ⟨_, arm_created _ hd ha, rfl, ?_⟩
      simp

/-- C9, at a freshly created processor whose backend reports a failure. -/
theorem failed_arm_atomic_witness :
    (GPUGainProcessor.create .eSync 2 256 (fun _ _ => (0 : Int))).arm .failed =
      .throw .createProcessorFailed
        { GPUGainProcessor.create .eSync 2 256 (fun _ _ => (0 : Int)) with
          calls := [.CreateProcessor .failed] } :=
  (failed_arm_atomic (GPUGainProcessor.create .eSync 2 256 (fun _ _ => (0 : Int))) .failed
    (by simp [GPUGainProcessor.Consistent, GPUGainProcessor.create]) rfl (Or.inl rfl)).1

/-- C8, as stated, fails at the constructor capacity 5000: the constructor takes the value as
it is, no operation changes a capacity of 4096 or more, and 5000 is no term of the doubling
sequence clipped to 4096. -/
theorem capacity_invariant_counterexample :
    (5000 : Nat) < 4294967296 ∧
    ∃ s : GPUGainProcessor Int,
      GPUGainProcessor.run 0 [Op.get_latency]
        (GPUGainProcessor.create .eSync 2 5000 (fun _ _ => 0)) = some s ∧
      ¬ ∃ j, s.m_executor_config.max_samples_per_channel = min (5000 * 2 ^ j) 4096 := by
  refine ⟨by decide, _, rfl, ?_⟩
  rintro ⟨j, hj⟩
  have h1 : min (5000 * 2 ^ j) 4096 ≤ 4096 := Nat.min_le_right _ _
  have h2 : (5000 : Nat) = min (5000 * 2 ^ j) 4096 := hj
  omega

/-- C8, amended. For every constructor capacity `c0` and every finite sequence of public
operations (`arm`, `disarm`, `set_gain`, `enable_buffer_growth`, `get_latency`, `process` with
any sample count): no operation that comes back lowers the capacity, and after every operation
the capacity is `min (c0 * 2 ^ j) 4096` for some `j ≥ 0` when `c0 ≤ 4096`, and is `c0` itself
when `c0 > 4096`. -/
theorem capacity_invariant [One α] (mode : ExecutionMode) (nchannels c0 : Nat) (output : Memory α)
    (fuel : Nat) :
    (∀ (op : Op α) (s s1 : GPUGainProcessor α), (s.step fuel op).state? = some s1 →
      s.m_executor_config.max_samples_per_channel ≤
        s1.m_executor_config.max_samples_per_channel) ∧
    (∀ (ops : List (Op α)) (s : GPUGainProcessor α),
      GPUGainProcessor.run fuel ops (GPUGainProcessor.create mode nchannels c0 output) = some s →
      (c0 ≤ MaxSampleCount →
        ∃ j, s.m_executor_config.max_samples_per_channel = min (c0 * 2 ^ j) MaxSampleCount) ∧
      (MaxSampleCount < c0 → s.m_executor_config.max_samples_per_channel = c0)) := by
  refine ⟨?_, ?_⟩
  · intro op s s1 h
    rcases (step_state fuel op s s1 h).2.2.1 with h1 | ⟨h1, j, -, h2⟩
    · omega
    · rw [h2, Nat.le_min]
      refine ⟨?_, Nat.le_of_lt h1⟩
      have := Nat.mul_le_mul_left s.m_executor_config.max_samples_per_channel
        (Nat.one_le_two_pow (n := j))
      omega
  · intro ops s h
    refine run_invariant fuel
      (fun t => (c0 ≤ MaxSampleCount →
          ∃ j, t.m_executor_config.max_samples_per_channel = min (c0 * 2 ^ j) MaxSampleCount) ∧
        (MaxSampleCount < c0 → t.m_executor_config.max_samples_per_channel = c0))
      ?_ ops _ s ?_ h
    · intro op t t1 ⟨hP1, hP2⟩ hs
      rcases (step_state fuel op t t1 hs).2.2.1 with h1 | ⟨h1, i, -, h2⟩
      · rw [h1]
        exact ⟨hP1, hP2⟩
      · refine ⟨fun hle => ?_, fun hgt => ?_⟩
        · obtain ⟨j, hj⟩ := hP1 hle
          have hj2 : t.m_executor_config.max_samples_per_channel = c0 * 2 ^ j := by
            rw [hj] at h1 ⊢
            exact Nat.min_eq_left (by omega)
          exact ⟨j + i, by rw [h2, hj2, Nat.mul_assoc, ← Nat.pow_add]⟩
        · have := hP2 hgt
          omega
    · exact ⟨fun _ => ⟨0, by
        show c0 = min (c0 * 2 ^ 0) MaxSampleCount
        rw [Nat.pow_zero, Nat.mul_one, Nat.min_eq_left (by assumption)]⟩, fun _ => rfl⟩

/-- C10, at the capacity zero, which the constructor accepts: a `process` call of one sample
never returns, whatever the fuel, the mode and the growth setting. With growth enabled the
`do`/`while` loop doubles zero for ever; with growth disabled the launch loop makes launches of
zero samples for ever. -/
theorem process_zero_capacity_diverges [One α] (fuel : Nat) (mode : ExecutionMode)
    (nchannels hd : Nat) (input output : Memory α) (a b : List Nat) (growth : Bool) :
    ((GPUGainProcessor.create mode nchannels 0 output).enable_buffer_growth growth).process
      fuel (.returned (some hd)) input a b 1 = .diverge := by
  have hN : toU32 1 = 1 := toU32_ofNat 1 (by decide)
  have harm := arm_created
    ((GPUGainProcessor.create mode nchannels 0 output).enable_buffer_growth growth) hd rfl
  have h1 : (if !((GPUGainProcessor.create mode nchannels 0 output).enable_buffer_growth
      growth).m_armed then
        ((GPUGainProcessor.create mode nchannels 0 output).enable_buffer_growth growth).arm
          (.returned (some hd))
      else .ok ((GPUGainProcessor.create mode nchannels 0 output).enable_buffer_growth growth))
      = _ := harm
  generalize hS1 : ({ (GPUGainProcessor.create mode nchannels 0 output).enable_buffer_growth
      growth with
      m_processor := some ⟨hd, ((GPUGainProcessor.create mode nchannels 0
        output).enable_buffer_growth growth).gain_value⟩
      m_process_executor := some (ProcessExecutor.new
        ((GPUGainProcessor.create mode nchannels 0 output).enable_buffer_growth growth).mode
        (some ⟨hd, ((GPUGainProcessor.create mode nchannels 0
          output).enable_buffer_growth growth).gain_value⟩)
        ((GPUGainProcessor.create mode nchannels 0
          output).enable_buffer_growth growth).m_executor_config)
      m_armed := true
      calls := ((GPUGainProcessor.create mode nchannels 0 output).enable_buffer_growth
        growth).calls ++ [.CreateProcessor (.returned (some hd)),
          .NewExecutor ((GPUGainProcessor.create mode nchannels 0
            output).enable_buffer_growth growth).m_executor_config] } :
      GPUGainProcessor α) = S1 at h1
  have hc1 : S1.Consistent := by
    subst hS1
    simp [GPUGainProcessor.Consistent, GPUGainProcessor.enable_buffer_growth,
      GPUGainProcessor.create, ProcessExecutor.new]
  have ha1 : S1.m_armed = true := by subst hS1; rfl
  have hcap1 : S1.m_executor_config.max_samples_per_channel = 0 := by subst hS1; rfl
  have hg1 : S1.m_buffer_growth_enabled = growth := by subst hS1; rfl
  simp only [GPUGainProcessor.process, h1, Outcome.andThen]
  cases growth with
  | true =>
    have h2 : S1.growthStep fuel 1 = .diverge := by
      unfold GPUGainProcessor.growthStep
      rw [if_pos ⟨hg1, by rw [hcap1, hN]; decide, by rw [hcap1]; decide⟩, hcap1, hN,
        growLoop_zero fuel 1 (by decide)]
    rw [h2]
  | false =>
    have h2 : S1.growthStep fuel 1 = .ok S1 := by
      unfold GPUGainProcessor.growthStep
      rw [if_neg (by simp [hg1])]
    rw [h2]
    simp only
    obtain ⟨c1, -⟩ := copyPointers_frame S1 a b 1
    exact launchLoop_zero_capacity input fuel a b (toU32 1) _ (c1.2.2.2.2.2.2.2 hc1)
      (c1.2.2.1.trans ha1) (by rw [c1.1]; exact hcap1) (by rw [hN]; decide)

/-- C11. Resource invariant of the lifecycle. In every state reached from a freshly constructed
processor by a finite sequence of public operations, failed calls included (an operation that
throws leaves the state the caller goes on with): the executors constructed are those destroyed
plus one when the processor is armed and plus none when it is disarmed, and so are the backend
processors created and destroyed; the executor and processor handles are held exactly when
armed. At every `NewExecutor` in the calls made so far no executor is alive and a backend
processor is; at every `DeleteProcessor` no executor is alive. In a `process` call made from
such a state the growth step, the only caller of `renewExecutor`, runs on an armed processor,
leaves it armed with the same backend processor, and either does nothing or destroys the old
executor and then builds the new one. A backend creation request that fails creates no
processor, and the construction of an executor does not fail. -/
theorem lifecycle_resources [One α] (fuel : Nat) (mode : ExecutionMode)
    (nchannels capacity : Nat) (output : Memory α) (ops : List (Op α))
    (s : GPUGainProcessor α)
    (h : GPUGainProcessor.run fuel ops
      (GPUGainProcessor.create mode nchannels capacity output) = some s) :
    constructedExecutors s.calls = destroyedExecutors s.calls + (if s.m_armed then 1 else 0) ∧
    createdProcessors s.calls = deletedProcessors s.calls + (if s.m_armed then 1 else 0) ∧
    s.m_process_executor.isSome = s.m_armed ∧ s.m_processor.isSome = s.m_armed ∧
    (∀ pre cfg post, s.calls = pre ++ .NewExecutor cfg :: post →
      constructedExecutors pre = destroyedExecutors pre ∧
      deletedProcessors pre < createdProcessors pre) ∧
    (∀ pre hd post, s.calls = pre ++ .DeleteProcessor hd :: post →
      constructedExecutors pre = destroyedExecutors pre ∧
      deletedProcessors pre < createdProcessors pre) ∧
    (∀ r s1, (if !s.m_armed then s.arm r else .ok s) = .ok s1 →
      s1.m_armed = true ∧
      ∀ fuel1 n s2, s1.growthStep fuel1 n = .ok s2 →
        s2.m_armed = true ∧ s2.m_processor = s1.m_processor ∧
        (s2 = s1 ∨
          s2.calls = s1.calls ++ [.DeleteExecutor, .NewExecutor s2.m_executor_config])) := by
  have hboth : s.Consistent ∧ s.ResourcesMatch :=
    run_invariant fuel (fun t => t.Consistent ∧ t.ResourcesMatch)
      (fun op t t1 ht hs =>
        ⟨(step_state fuel op t t1 hs).2.2.2 ht.1, step_resources fuel op t t1 hs ht.1 ht.2⟩)
      ops _ s ⟨create_consistent mode nchannels capacity output, rfl⟩ h
  obtain ⟨hc, hm⟩ := hboth
  unfold GPUGainProcessor.ResourcesMatch at hm
  obtain ⟨k1, k2⟩ := track_counts s.calls _ _ hm
  refine ⟨by simpa using k1, by simpa using k2, ?_, ?_, ?_, ?_, ?_⟩
  · cases ha : s.m_armed
    · rw [(hc.1 ha).2]
      rfl
    · obtain ⟨p, e, -, he, -, -⟩ := hc.2.1 ha
      rw [he]
      rfl
  · cases ha : s.m_armed
    · rw [(hc.1 ha).1]
      rfl
    · obtain ⟨p, e, hp, -, -, -⟩ := hc.2.1 ha
      rw [hp]
      rfl
  · intro pre cfg post hcalls
    rw [hcalls] at hm
    obtain ⟨l1, l2, h1, h2⟩ := track_prefix pre post _ _ _ hm
    obtain ⟨c1, c2⟩ := track_counts pre _ _ h1
    simp only [LiveResources.after] at h2
    split at h2
    · rename_i hl
      simp only [Nat.add_zero] at c1 c2
      omega
    · simp at h2
  · intro pre hd post hcalls
    rw [hcalls] at hm
    obtain ⟨l1, l2, h1, h2⟩ := track_prefix pre post _ _ _ hm
    obtain ⟨c1, c2⟩ := track_counts pre _ _ h1
    simp only [LiveResources.after] at h2
    split at h2
    · rename_i hl
      simp only [Nat.add_zero] at c1 c2
      omega
    · simp at h2
  · intro r s1 h1
    obtain ⟨a1, -, -, -, -, -, a7⟩ := armIfNeeded_state r s s1 h1
    refine ⟨a1, ?_⟩
    intro fuel1 n s2 h2
    rcases growthStep_cases fuel1 n s1 s2 (by rw [h2]; rfl) with
      ⟨-, rfl⟩ | ⟨-, j, -, -, -, -, rfl⟩
    · exact ⟨a1, rfl, Or.inl rfl⟩
    · obtain ⟨p, e, -, he, -, -⟩ := (a7 hc).2.1 a1
      obtain ⟨-, f2, -, -, f5, -, f7, -⟩ := renewExecutor_fields (s1.withCapacity
        (min (s1.m_executor_config.max_samples_per_channel * 2 ^ j) MaxSampleCount))
      refine ⟨f2.trans a1, f5, Or.inr ?_⟩
      rw [renewExecutor_calls (s1.withCapacity
        (min (s1.m_executor_config.max_samples_per_channel * 2 ^ j) MaxSampleCount)) e he, f7]
      rfl

/-- C11, at a run with two failed calls: a failed `arm`, a `process` call of 600 samples that
arms and grows the capacity, a `set_gain` refused while armed, `disarm`, and `arm` again. Three
executors were constructed and two destroyed, two backend processors created and one
destroyed, and the processor is armed. -/
theorem lifecycle_resources_witness :
    ∃ s : GPUGainProcessor Int,
      GPUGainProcessor.run 16
        [.arm .failed, .process (.returned (some 7)) (fun _ _ => 1) [0, 0] [0, 0] 600,
          .set_gain 3, .disarm, .arm (.returned (some 8))]
        (GPUGainProcessor.create .eSync 2 256 (fun _ _ => 0)) = some s ∧
      s.m_armed = true ∧
      constructedExecutors s.calls = 3 ∧ destroyedExecutors s.calls = 2 ∧
      createdProcessors s.calls = 2 ∧ deletedProcessors s.calls = 1 ∧
      constructedExecutors s.calls = destroyedExecutors s.calls + (if s.m_armed then 1 else 0) ∧
      createdProcessors s.calls = deletedProcessors s.calls + (if s.m_armed then 1 else 0) := by
  have hrun : ∃ s : GPUGainProcessor Int,
      GPUGainProcessor.run 16
        [.arm .failed, .process (.returned (some 7)) (fun _ _ => 1) [0, 0] [0, 0] 600,
          .set_gain 3, .disarm, .arm (.returned (some 8))]
        (GPUGainProcessor.create .eSync 2 256 (fun _ _ => 0)) = some s ∧
      s.m_armed = true ∧
      constructedExecutors s.calls = 3 ∧ destroyedExecutors s.calls = 2 ∧
      createdProcessors s.calls = 2 ∧ deletedProcessors s.calls = 1 :=
    ⟨_, rfl, rfl, rfl, rfl, rfl, rfl⟩
  obtain ⟨s, hs, h1, h2, h3, h4, h5⟩ := hrun
  exact ⟨s, hs, h1, h2, h3, h4, h5,
    (lifecycle_resources 16 .eSync 2 256 (fun _ _ => (0 : Int)) _ s hs).1,
    (lifecycle_resources 16 .eSync 2 256 (fun _ _ => (0 : Int)) _ s hs).2.1⟩

end Claims

end GainLib
